import Mathlib

/-!  Verification of the MisMisQuote fuzzy subsequence matcher.

A shallow embedding of `src/mismisquote.py` (the canonical, recursive-fuzzy
implementation named by the specification).  Modelling conventions:

* Python floats are modelled as rationals (`ℚ`); all values occurring in the
  algorithm are produced by `min`, `+`, `*`, `/` on such values.
* A Python string token is modelled as the list of its characters, a
  character being identified with its code point (`Item := List ℕ`);
  `isinstance(item, str) and len(item) > 1` becomes `1 < item.length`.
* A Python `dict` (insertion ordered) becomes an association list built in
  insertion order.
* A Python `raise ValueError(...)` becomes `Except.error` with one error
  constructor per raise site.
* The recursion `get_locmap → find_in → get_locmap → …` is bounded by an
  explicit `fuel` parameter; Python recurses at most once here, because the
  items of a nested matcher are single characters, so `fuel = 2` realises
  the exact Python behaviour for every matcher the constructor builds.
-/

namespace MMQ

/-- Tokens are Python strings, modelled as lists of characters (a character
is identified with its code point, a natural number).  A token of length
greater than one is a compound token and owns a nested matcher. -/
abbrev Item := List ℕ

/-- Errors of the Python code: one constructor per `raise ValueError(...)`
site, plus the modelling artifact `fuelExhausted` for exhausted recursion
fuel (a branch never reached from `findIn`, see `find_in`). -/
inductive Err where
  | itemsEmpty
  | invalidDifferences
  | invalidMultiplier
  | invalidThreshold
  | invalidLength
  | toleranceTooLarge
  | lengthMismatch
  | fuelExhausted
  deriving DecidableEq

/-- Function `_or` of `mismisquote.py` lines 4-37.  The three
`ValueError(...)` expressions in its body (lines 30-36) are constructed but
never raised - the `raise` keyword is missing - so the function always
returns `min(1.0, newscore + oldscore/(2+howold))`; the embedding therefore
has no error channel. -/
def _or (newscore oldscore : ℚ) (howold : ℤ) : ℚ :=
  min 1 (newscore + oldscore / (2 + (howold : ℚ)))

/-- State of class `MMQTracker` (`mismisquote.py` lines 260-299): the fixed
pattern length and configuration, and the growing history of state vectors
(`self.tracker`, appended at the end). -/
structure MMQTracker where
  length : ℕ
  allowed_differences : ℤ
  nomatch_multiplier : ℚ
  threshold : ℚ
  tracker : List (List ℚ)
  deriving DecidableEq

namespace MMQTracker

/-- Validation of `MMQTracker.__init__` (lines 279-299).  The call sites
pass `len(...)` for `length`, a natural number, so Python `length <= 0`
becomes `length = 0`. -/
def make (length : ℕ) (allowed_differences : ℤ)
    (nomatch_multiplier threshold : ℚ) : Except Err MMQTracker :=
  if length = 0 then .error .invalidLength
  else if allowed_differences < 0 then .error .invalidDifferences
  else if (length : ℤ) ≤ allowed_differences then .error .toleranceTooLarge
  else if nomatch_multiplier < 0 ∨ 1 ≤ nomatch_multiplier then .error .invalidMultiplier
  else if threshold < 0 ∨ 1 < threshold then .error .invalidThreshold
  else .ok ⟨length, allowed_differences, nomatch_multiplier, threshold, []⟩

/-- Method `_shift_last_tracker` (lines 358-369): drop the head of the last
state and append the fresh seed `1.0`; on the first call synthesise the
predecessor from the `filler` value instead. -/
def _shift_last_tracker (t : MMQTracker) : List ℚ :=
  match t.tracker.getLast? with
  | some last => last.drop 1 ++ [1]
  | none =>
      let filler : ℚ :=
        if 0 < t.nomatch_multiplier then t.nomatch_multiplier
        else if 0 < t.allowed_differences then
          1 / ((t.allowed_differences : ℚ) + 1)
        else 0
      List.replicate (t.length - 1) filler ++ [1]

/-- Method `_shift_old_tracker` (lines 371-372):
`self.tracker[-(j+2)][j+2:] + [1.0]*(j+2)`.  Python indexing from the end is
modelled through `List.reverse`; the call site guards
`j < len(self.tracker) - 1`, so the `getD` default is never consulted
there. -/
def _shift_old_tracker (t : MMQTracker) (j : ℕ) : List ℚ :=
  (t.tracker.reverse.getD (j + 1) []).drop (j + 2) ++ List.replicate (j + 2) 1

/-- Method `_and_tracker` (lines 374-383): walk indices `0..length-1` of the
shifted state and combine entry `i` with the alignment value at the mirrored
index `length - i - 1`: a hard mismatch (`0.0`) multiplies by the
`nomatch_multiplier`, a fuzzy value below `1.0` multiplies by that value,
and an exact `1.0` leaves the entry unchanged. -/
def _and_tracker (t : MMQTracker) (newtracker matchList : List ℚ) : List ℚ :=
  (List.range t.length).map fun i =>
    let x := newtracker.getD i 0
    let m := matchList.getD (t.length - i - 1) 0
    if m = 0 then x * t.nomatch_multiplier
    else if m < 1 then x * m
    else x

/-- Body of the tolerance loop of `shiftand` (lines 343-352), for one `j`:
or-combine the trailing entry `j + 1` of the new state, and, where the
guard `j < len(self.tracker) - 1` holds on the already-appended history
`t'`, also the entry 0 of the historic diagonal transition. -/
def orStep (t' : MMQTracker) (newtracker locmap : List ℚ) (sc : ℚ) (j : ℕ) : ℚ :=
  let sc := _or sc (newtracker.getD (j + 1) 0) (j : ℤ)
  if j < t'.tracker.length - 1 then
    _or sc ((t'._and_tracker (t'._shift_old_tracker j) locmap).getD 0 0) (j : ℤ)
  else sc

/-- Method `shiftand` (lines 301-356): reject a locmap of the wrong length,
shift-and-combine into the new state, append it to the history, then (when
`allowed_differences` is non-zero - Python truthiness) fold the tolerance
loop `orStep` over `j`. -/
def shiftand (t : MMQTracker) (locmap : List ℚ) : Except Err (ℚ × MMQTracker) :=
  if locmap.length ≠ t.length then .error .lengthMismatch
  else
    let newtracker := t._and_tracker t._shift_last_tracker locmap
    let t' : MMQTracker := { t with tracker := t.tracker ++ [newtracker] }
    let score :=
      if t.allowed_differences ≠ 0 then
        (List.range t.allowed_differences.toNat).foldl
          (orStep t' newtracker locmap) (newtracker.getD 0 0)
      else newtracker.getD 0 0
    .ok (score, t')

end MMQTracker

/-- One step of the `MMQVectors.__init__` loop (lines 200-214), second half:
set position `i` of the entry keyed `key` to `1.0`.  Keys are unique by
construction, so at most one entry changes. -/
def setLoc (vs : List (Item × List ℚ)) (key : Item) (i : ℕ) :
    List (Item × List ℚ) :=
  vs.map fun e => if e.1 = key then (e.1, e.2.set i 1) else e

/-- One step of the `MMQVectors.__init__` loop (lines 200-214): insert a
fresh all-zero occurrence vector when the key is new, then mark position
`p.1` of the key's vector. -/
def buildStep (L : ℕ) (vs : List (Item × List ℚ)) (p : ℕ × Item) :
    List (Item × List ℚ) :=
  setLoc (if vs.any fun e => e.1 = p.2 then vs
          else vs ++ [(p.2, List.replicate L 0)]) p.2 p.1

/-- Occurrence-vector table of `MMQVectors.__init__`: the insertion-ordered
Python dict becomes an association list over the distinct pattern tokens.
The nested `MisMisQuote` object that Python attaches to each compound key is
not stored: it is a pure function of the key and the configuration and is
rebuilt at its only use site in `get_locmap` (its constructor validation
always succeeds when the outer constructor succeeded, since it re-checks
the same configuration on a non-empty item list). -/
def buildVectors (L : ℕ) (items : List Item) : List (Item × List ℚ) :=
  items.enum.foldl (buildStep L) []

/-- State of class `MisMisQuote` (lines 40-96): pattern, configuration and
the vector table (the embedded `MMQVectors` carries the same configuration
fields, re-validated identically, so they are not duplicated here). -/
structure MisMisQuote where
  items : List Item
  allowed_differences : ℤ
  nomatch_multiplier : ℚ
  threshold : ℚ
  vectors : List (Item × List ℚ)
  deriving DecidableEq

/-- Constructor `MisMisQuote.__init__` (lines 73-96): the four validation
checks, then the vector table.  Note there is no `allowed_differences <
length` check here; that bound is only enforced by `MMQTracker.__init__`
when `find_in` later builds its tracker. -/
def MisMisQuote.make (items : List Item) (allowed_differences : ℤ)
    (nomatch_multiplier threshold : ℚ) : Except Err MisMisQuote :=
  if items = [] then .error .itemsEmpty
  else if allowed_differences < 0 then .error .invalidDifferences
  else if nomatch_multiplier < 0 ∨ 1 ≤ nomatch_multiplier then .error .invalidMultiplier
  else if threshold < 0 ∨ 1 < threshold then .error .invalidThreshold
  else .ok ⟨items, allowed_differences, nomatch_multiplier, threshold,
            buildVectors items.length items⟩

/-- Python `list(item)` on a string (line 242 and the nested constructor
argument on line 209): the characters of a compound token, each again a
string of length one. -/
def toSingles (item : Item) : List Item := item.map fun c => [c]

/-- Insertion step of the stable descending-by-score sort: place `x` in
front of the first element whose score does not exceed the score of `x`, so
that among equal scores earlier elements stay first. -/
def insertByScore {α : Type} (x : α × ℚ) : List (α × ℚ) → List (α × ℚ)
  | [] => [x]
  | y :: ys => if y.2 ≤ x.2 then x :: y :: ys else y :: insertByScore x ys

/-- Stable sort by score descending.  Python `list.sort(key=..., reverse=
True)` is specified as the stable descending sort, and the output of a
stable sort is the unique permutation that is descending and keeps equal
scores in the original order, so this insertion sort computes exactly the
Python result. -/
def sortByScore {α : Type} (l : List (α × ℚ)) : List (α × ℚ) :=
  l.foldr insertByScore []

/-- Fuzzy-candidate loop of `get_locmap` (lines 237-244), parameterised by
the `find_in` of the nested matchers: iterate the vector table in insertion
order; for every key owning a nested matcher (compound key) run that
matcher's `find_in` on the constituent elements of the probed item, and
record `(key, res[0][1])` when the result list is non-empty.  An error in a
nested call aborts the loop exactly as a Python exception would.  The
nested matcher is rebuilt from the key and the configuration (see
`buildVectors`). -/
def potentialsLoopF (findNested : MisMisQuote → List Item → Except Err (List (ℕ × ℚ)))
    (m : MisMisQuote) (elts : List Item) :
    List (Item × List ℚ) → Except Err (List (Item × ℚ))
  | [] => .ok []
  | e :: rest => do
      let acc ←
        if 1 < e.1.length then do
          let sub ← MisMisQuote.make (toSingles e.1) m.allowed_differences
                      m.nomatch_multiplier m.threshold
          let res ← findNested sub elts
          pure (match res with
                | [] => ([] : List (Item × ℚ))
                | r :: _ => [(e.1, r.2)])
        else pure []
      let tail ← potentialsLoopF findNested m elts rest
      .ok (acc ++ tail)

/-- Method `MMQVectors.get_locmap` (lines 216-257), parameterised by the
`find_in` of the nested matchers: an exact hit returns the stored
occurrence vector; otherwise collect the fuzzy candidates, sort them by
confidence descending and scale the winner's occurrence vector by the
winning confidence, or return the all-zero vector when no candidate
exists. -/
def get_locmapF (findNested : MisMisQuote → List Item → Except Err (List (ℕ × ℚ)))
    (m : MisMisQuote) (item : Item) : Except Err (List ℚ) :=
  match m.vectors.find? (fun e => e.1 = item) with
  | some e => .ok e.2
  | none => do
      let potentials ← potentialsLoopF findNested m (toSingles item) m.vectors
      match sortByScore potentials with
      | [] => .ok (List.replicate m.items.length 0)
      | w :: _ =>
          .ok ((((m.vectors.find? (fun e => e.1 = w.1)).map (·.2)).getD []).map
                 fun x => x * w.2)

/-- Scan loop of `MisMisQuote.find_in` (lines 129-135), parameterised like
`get_locmapF`, and also returning the final tracker so that scans over
concatenated references compose. -/
def scanLoopF (findNested : MisMisQuote → List Item → Except Err (List (ℕ × ℚ)))
    (m : MisMisQuote) (t : MMQTracker) (i : ℕ) :
    List Item → Except Err (List (ℕ × ℚ) × MMQTracker)
  | [] => .ok ([], t)
  | r :: rs => do
      let lm ← get_locmapF findNested m r
      let st ← t.shiftand lm
      let rest ← scanLoopF findNested m st.2 (i + 1) rs
      .ok ((i, st.1) :: rest.1, rest.2)

/-- Method `MisMisQuote.find_in` (lines 98-139), parameterised like
`get_locmapF`: build a fresh tracker, scan the reference collecting
`(position, score)` pairs, sort them by score descending (stable) and keep
the pairs whose score reaches the threshold. -/
def find_inF (findNested : MisMisQuote → List Item → Except Err (List (ℕ × ℚ)))
    (m : MisMisQuote) (reference_items : List Item) :
    Except Err (List (ℕ × ℚ)) := do
  let t ← MMQTracker.make m.items.length m.allowed_differences
            m.nomatch_multiplier m.threshold
  let results ← scanLoopF findNested m t 0 reference_items
  .ok ((sortByScore results.1).filter fun r => m.threshold ≤ r.2)

/-- Method `find_in` with the recursion through `get_locmap` bounded by
`fuel`.  Python recursion terminates because nested pattern items are
single characters; here `find_in 2` realises the exact Python behaviour for
every matcher the constructor builds, since the `fuel = 0` base case can
only be consulted by a matcher two nesting levels down, which never
exists. -/
def find_in : ℕ → MisMisQuote → List Item → Except Err (List (ℕ × ℚ))
  | 0, _, _ => .error .fuelExhausted
  | fuel + 1, m, reference_items => find_inF (find_in fuel) m reference_items

/-- Method `MMQVectors.get_locmap` with nested searches running at recursion
depth `fuel`; `get_locmap 1` realises the Python behaviour for
constructor-built matchers. -/
def get_locmap (fuel : ℕ) (m : MisMisQuote) (item : Item) :
    Except Err (List ℚ) :=
  get_locmapF (find_in fuel) m item

/-- Raw per-position scores of a scan: the `results` list of `find_in`
before sorting and filtering, with nested searches at depth `fuel`
(`scanScores 1` matches `find_in 2`). -/
def scanScores (fuel : ℕ) (m : MisMisQuote) (reference_items : List Item) :
    Except Err (List (ℕ × ℚ)) := do
  let t ← MMQTracker.make m.items.length m.allowed_differences
            m.nomatch_multiplier m.threshold
  let results ← scanLoopF (find_in fuel) m t 0 reference_items
  .ok results.1

/-- Construction followed by search: `MisMisQuote(items, ...)` then
`find_in(reference_items)`, at the recursion depth (2) that realises the
Python behaviour for every constructor-built matcher. -/
def findIn (items : List Item) (allowed_differences : ℤ)
    (nomatch_multiplier threshold : ℚ) (reference_items : List Item) :
    Except Err (List (ℕ × ℚ)) := do
  let m ← MisMisQuote.make items allowed_differences nomatch_multiplier threshold
  find_in 2 m reference_items

/-- Well-formedness of a matcher: exactly the facts established by a
successful `MisMisQuote.make`. -/
def MisMisQuote.Wf (m : MisMisQuote) : Prop :=
  m.items ≠ [] ∧ 0 ≤ m.allowed_differences ∧
  0 ≤ m.nomatch_multiplier ∧ m.nomatch_multiplier < 1 ∧
  0 ≤ m.threshold ∧ m.threshold ≤ 1 ∧
  m.vectors = buildVectors m.items.length m.items

/-- Well-formedness of a tracker history: every recorded state vector has
the configured pattern length. -/
def MMQTracker.Wf (t : MMQTracker) : Prop :=
  ∀ st ∈ t.tracker, st.length = t.length

/-- Modelled from the words of claim C5 (the specification's step 5): the
alternate diagonal transition is computed exactly when more than `j + 1`
states from prior calls exist, and it is derived from the state produced
`j + 2` calls earlier (so `t.tracker.reverse.getD (j + 1) []`, the history
being the states of the prior calls only), shifted by `j + 2`, combined
with the current alignment, its entry 0 or-combined with distance `j`.
Everything else repeats `shiftand`. -/
def shiftandClaimed (t : MMQTracker) (locmap : List ℚ) : Except Err (ℚ × MMQTracker) :=
  if locmap.length ≠ t.length then .error .lengthMismatch
  else
    let newtracker := t._and_tracker t._shift_last_tracker locmap
    let t' : MMQTracker := { t with tracker := t.tracker ++ [newtracker] }
    let score :=
      if t.allowed_differences ≠ 0 then
        (List.range t.allowed_differences.toNat).foldl
          (fun sc j =>
            let sc := _or sc (newtracker.getD (j + 1) 0) (j : ℤ)
            if j + 1 < t.tracker.length then
              _or sc ((t._and_tracker
                ((t.tracker.reverse.getD (j + 1) []).drop (j + 2) ++
                  List.replicate (j + 2) 1) locmap).getD 0 0) (j : ℤ)
            else sc)
          (newtracker.getD 0 0)
      else newtracker.getD 0 0
    .ok (score, t')

/-- Amendment of claim C5: the alternate diagonal transition is computed
exactly when more than `j` states from prior calls exist, and it is derived
from the state produced `j + 1` calls earlier (`t.tracker.reverse.getD j
[]` over the prior-call history), shifted by `j + 2` as before; this is the
reading in which the guard `j < len(self.tracker) - 1` and the index
`self.tracker[-(j+2)]` are evaluated on the history that already contains
the state appended by the current call. -/
def shiftandAmendedX (t : MMQTracker) (locmap : List ℚ) : Except Err (ℚ × MMQTracker) :=
  if locmap.length ≠ t.length then .error .lengthMismatch
  else
    let newtracker := t._and_tracker t._shift_last_tracker locmap
    let t' : MMQTracker := { t with tracker := t.tracker ++ [newtracker] }
    let score :=
      if t.allowed_differences ≠ 0 then
        (List.range t.allowed_differences.toNat).foldl
          (fun sc j =>
            let sc := _or sc (newtracker.getD (j + 1) 0) (j : ℤ)
            if j < t.tracker.length then
              _or sc ((t._and_tracker
                ((t.tracker.reverse.getD j []).drop (j + 2) ++
                  List.replicate (j + 2) 1) locmap).getD 0 0) (j : ℤ)
            else sc)
          (newtracker.getD 0 0)
      else newtracker.getD 0 0
    .ok (score, t')

/-! Reduction helpers for the `Except` monad and the fuel recursion. -/

theorem okBind {α β : Type} (v : α) (f : α → Except Err β) :
    Bind.bind (Except.ok v : Except Err α) f = f v := rfl

theorem errBind {α β : Type} (e : Err) (f : α → Except Err β) :
    Bind.bind (Except.error e : Except Err α) f = .error e := rfl

theorem find_in_succ (fuel : ℕ) (m : MisMisQuote) (r : List Item) :
    find_in (fuel + 1) m r = find_inF (find_in fuel) m r := rfl

theorem find_in_zero (m : MisMisQuote) (r : List Item) :
    find_in 0 m r = .error .fuelExhausted := rfl

/-! Access lemmas for the tracker combinators. -/

theorem getD_range_map (f : ℕ → ℚ) {L e : ℕ} (he : e < L) :
    ((List.range L).map f).getD e 0 = f e := by
  rw [List.getD_eq_getElem?_getD, List.getElem?_map, List.getElem?_range he]
  rfl

theorem and_tracker_length (t : MMQTracker) (a b : List ℚ) :
    (t._and_tracker a b).length = t.length := by
  simp [MMQTracker._and_tracker]

theorem and_tracker_getD (t : MMQTracker) (a b : List ℚ) {e : ℕ} (he : e < t.length) :
    (t._and_tracker a b).getD e 0 =
      (if b.getD (t.length - e - 1) 0 = 0 then a.getD e 0 * t.nomatch_multiplier
       else if b.getD (t.length - e - 1) 0 < 1 then
         a.getD e 0 * b.getD (t.length - e - 1) 0
       else a.getD e 0) := by
  unfold MMQTracker._and_tracker
  rw [getD_range_map _ he]

theorem shift_last_length (t : MMQTracker) (hwf : t.Wf) (hL : 0 < t.length) :
    t._shift_last_tracker.length = t.length := by
  unfold MMQTracker._shift_last_tracker
  match hlast : t.tracker.getLast? with
  | some last =>
      have hmem : last ∈ t.tracker := List.mem_of_mem_getLast? hlast
      have hlen : last.length = t.length := hwf last hmem
      simp [List.length_append, List.length_drop, hlen]
      omega
  | none => simp [List.length_append, List.length_replicate]; omega

theorem shiftand_eq_ok (t : MMQTracker) (lm : List ℚ) (h : lm.length = t.length) :
    ∃ s, t.shiftand lm =
      .ok (s, { t with tracker := t.tracker ++ [t._and_tracker t._shift_last_tracker lm] }) := by
  unfold MMQTracker.shiftand
  rw [if_neg (by simp [h])]
  exact ⟨_, rfl⟩

theorem shiftand_error (t : MMQTracker) (lm : List ℚ) (e : Err)
    (h : t.shiftand lm = .error e) : e = .lengthMismatch ∧ lm.length ≠ t.length := by
  unfold MMQTracker.shiftand at h
  by_cases hc : lm.length ≠ t.length
  · rw [if_pos hc] at h
    exact ⟨((Except.error.injEq _ _).mp h).symm, hc⟩
  · rw [if_neg hc] at h
    exact absurd h (by simp)

theorem shiftand_ok_dest (t : MMQTracker) (lm : List ℚ) (s : ℚ) (t' : MMQTracker)
    (hwf : t.Wf) (h : t.shiftand lm = .ok (s, t')) :
    t'.Wf ∧ t'.length = t.length ∧
    t'.allowed_differences = t.allowed_differences ∧
    t'.nomatch_multiplier = t.nomatch_multiplier ∧ t'.threshold = t.threshold ∧
    t'.tracker = t.tracker ++ [t._and_tracker t._shift_last_tracker lm] ∧
    lm.length = t.length := by
  unfold MMQTracker.shiftand at h
  by_cases hc : lm.length ≠ t.length
  · rw [if_pos hc] at h; exact absurd h (by simp)
  · rw [if_neg hc] at h
    have h2 := (Except.ok.injEq _ _).mp h
    have ht' : t' = { t with tracker := t.tracker ++ [t._and_tracker t._shift_last_tracker lm] } :=
      (congrArg Prod.snd h2).symm
    subst ht'
    refine ⟨?_, rfl, rfl, rfl, rfl, rfl, by omega⟩
    intro st hst
    rcases List.mem_append.mp hst with hmem | hmem
    · exact hwf st hmem
    · rw [List.mem_singleton.mp hmem]
      exact and_tracker_length t _ _

/-! Facts about the stable descending sort. -/

theorem insertByScore_perm {α : Type} (x : α × ℚ) (l : List (α × ℚ)) :
    List.Perm (insertByScore x l) (x :: l) := by
  induction l with
  | nil => rfl
  | cons y ys ih =>
      by_cases h : y.2 ≤ x.2
      · simp [insertByScore, h]
      · simp only [insertByScore, if_neg h]
        exact (List.Perm.cons y ih).trans (List.Perm.swap x y ys)

theorem sortByScore_perm {α : Type} (l : List (α × ℚ)) : List.Perm (sortByScore l) l := by
  induction l with
  | nil => rfl
  | cons x xs ih =>
      exact (insertByScore_perm x (sortByScore xs)).trans (List.Perm.cons x ih)

theorem mem_sortByScore {α : Type} {x : α × ℚ} {l : List (α × ℚ)} :
    x ∈ sortByScore l ↔ x ∈ l :=
  (sortByScore_perm l).mem_iff

theorem insertByScore_sorted {α : Type} (x : α × ℚ) {l : List (α × ℚ)}
    (h : l.Pairwise fun a b => b.2 ≤ a.2) :
    (insertByScore x l).Pairwise fun a b => b.2 ≤ a.2 := by
  induction l with
  | nil => simp [insertByScore]
  | cons y ys ih =>
      by_cases hc : y.2 ≤ x.2
      · simp only [insertByScore, if_pos hc]
        refine List.Pairwise.cons ?_ h
        intro z hz
        rcases List.mem_cons.mp hz with rfl | hz
        · exact hc
        · exact le_trans (List.rel_of_pairwise_cons h hz) hc
      · simp only [insertByScore, if_neg hc]
        refine List.Pairwise.cons ?_ (ih (List.Pairwise.sublist (List.sublist_cons_self y ys) h))
        intro z hz
        rcases List.mem_cons.mp ((insertByScore_perm x ys).mem_iff.mp hz) with rfl | hz
        · exact le_of_lt (lt_of_not_le hc)
        · exact List.rel_of_pairwise_cons h hz

theorem sortByScore_sorted {α : Type} (l : List (α × ℚ)) :
    (sortByScore l).Pairwise fun a b => b.2 ≤ a.2 := by
  induction l with
  | nil => simp [sortByScore]
  | cons x xs ih => exact insertByScore_sorted x ih

theorem sortByScore_head_max {α : Type} {l : List (α × ℚ)} {w : α × ℚ}
    {rest : List (α × ℚ)} (h : sortByScore l = w :: rest) :
    ∀ x ∈ l, x.2 ≤ w.2 := by
  intro x hx
  have hx2 : x ∈ w :: rest := h ▸ mem_sortByScore.mpr hx
  rcases List.mem_cons.mp hx2 with rfl | hx2
  · exact le_refl _
  · have hs := sortByScore_sorted l
    rw [h] at hs
    exact List.rel_of_pairwise_cons hs hx2

/-! Facts about the occurrence-vector table. -/

theorem setLoc_keys (vs : List (Item × List ℚ)) (key : Item) (i : ℕ) :
    (setLoc vs key i).map Prod.fst = vs.map Prod.fst := by
  unfold setLoc
  rw [List.map_map]
  refine List.map_congr_left ?_
  intro e _
  by_cases h : e.1 = key <;> simp [h]

theorem setLoc_mem {vs : List (Item × List ℚ)} {k : Item} {v : List ℚ}
    (h : (k, v) ∈ vs) (key : Item) (i : ℕ) :
    (k, if k = key then v.set i 1 else v) ∈ setLoc vs key i := by
  unfold setLoc
  have := List.mem_map_of_mem
    (fun e : Item × List ℚ => if e.1 = key then (e.1, e.2.set i 1) else e) h
  by_cases hk : k = key <;> simpa [hk] using this

theorem setLoc_mem_src {vs : List (Item × List ℚ)} {key : Item} {i : ℕ}
    {e' : Item × List ℚ} (h : e' ∈ setLoc vs key i) :
    ∃ e ∈ vs, e'.1 = e.1 ∧ (e'.2 = e.2 ∨ e'.2 = e.2.set i 1) := by
  unfold setLoc at h
  obtain ⟨e, he, heq⟩ := List.mem_map.mp h
  by_cases hk : e.1 = key
  · rw [if_pos hk] at heq
    exact ⟨e, he, by rw [← heq], Or.inr (by rw [← heq])⟩
  · rw [if_neg hk] at heq
    exact ⟨e, he, by rw [← heq], Or.inl (by rw [← heq])⟩

theorem buildStep_len {L : ℕ} {vs : List (Item × List ℚ)} {p : ℕ × Item}
    (h : ∀ e ∈ vs, (e.2 : List ℚ).length = L) :
    ∀ e ∈ buildStep L vs p, (e.2 : List ℚ).length = L := by
  intro e' he'
  unfold buildStep at he'
  obtain ⟨e, he, _, h2⟩ := setLoc_mem_src he'
  have hlen : e.2.length = L := by
    by_cases hany : vs.any fun x => x.1 = p.2
    · rw [if_pos hany] at he
      exact h e he
    · rw [if_neg hany] at he
      rcases List.mem_append.mp he with hm | hm
      · exact h e hm
      · rw [List.mem_singleton.mp hm]
        exact List.length_replicate _ _
  rcases h2 with h2 | h2 <;> rw [h2]
  · exact hlen
  · rw [List.length_set]; exact hlen

theorem fold_buildStep_len {L : ℕ} :
    ∀ (ps : List (ℕ × Item)) (vs : List (Item × List ℚ)),
      (∀ e ∈ vs, (e.2 : List ℚ).length = L) →
      ∀ e ∈ List.foldl (buildStep L) vs ps, (e.2 : List ℚ).length = L := by
  intro ps
  induction ps with
  | nil => intro vs h; simpa using h
  | cons q qs ih =>
      intro vs h
      exact ih (buildStep L vs q) (buildStep_len h)

theorem buildVectors_len {L : ℕ} {items : List Item} :
    ∀ e ∈ buildVectors L items, (e.2 : List ℚ).length = L :=
  fold_buildStep_len items.enum [] (by simp)

theorem buildStep_vals {L : ℕ} {vs : List (Item × List ℚ)} {p : ℕ × Item}
    (h : ∀ e ∈ vs, ∀ x ∈ (e.2 : List ℚ), x = 0 ∨ x = 1) :
    ∀ e ∈ buildStep L vs p, ∀ x ∈ (e.2 : List ℚ), x = 0 ∨ x = 1 := by
  intro e' he'
  unfold buildStep at he'
  obtain ⟨e, he, _, h2⟩ := setLoc_mem_src he'
  have hval : ∀ x ∈ e.2, x = 0 ∨ x = 1 := by
    by_cases hany : vs.any fun x => x.1 = p.2
    · rw [if_pos hany] at he
      exact h e he
    · rw [if_neg hany] at he
      rcases List.mem_append.mp he with hm | hm
      · exact h e hm
      · rw [List.mem_singleton.mp hm]
        intro x hx
        exact Or.inl (List.eq_of_mem_replicate hx)
  intro x hx
  rcases h2 with h2 | h2
  · exact hval x (h2 ▸ hx)
  · rw [h2] at hx
    rcases List.mem_or_eq_of_mem_set hx with hx | hx
    · exact hval x hx
    · exact Or.inr hx

theorem fold_buildStep_vals {L : ℕ} :
    ∀ (ps : List (ℕ × Item)) (vs : List (Item × List ℚ)),
      (∀ e ∈ vs, ∀ x ∈ (e.2 : List ℚ), x = 0 ∨ x = 1) →
      ∀ e ∈ List.foldl (buildStep L) vs ps, ∀ x ∈ (e.2 : List ℚ), x = 0 ∨ x = 1 := by
  intro ps
  induction ps with
  | nil => intro vs h; simpa using h
  | cons q qs ih =>
      intro vs h
      exact ih (buildStep L vs q) (buildStep_vals h)

theorem buildVectors_vals {L : ℕ} {items : List Item} :
    ∀ e ∈ buildVectors L items, ∀ x ∈ (e.2 : List ℚ), x = 0 ∨ x = 1 :=
  fold_buildStep_vals items.enum [] (by simp)

theorem buildStep_keys {L : ℕ} (vs : List (Item × List ℚ)) (p : ℕ × Item) :
    (buildStep L vs p).map Prod.fst =
      (if p.2 ∈ vs.map Prod.fst then vs.map Prod.fst
       else vs.map Prod.fst ++ [p.2]) := by
  unfold buildStep
  rw [setLoc_keys]
  by_cases hany : vs.any fun x => x.1 = p.2
  · have hin : p.2 ∈ vs.map Prod.fst := by
      obtain ⟨e, he, hpe⟩ := List.any_eq_true.mp hany
      exact List.mem_map.mpr ⟨e, he, by simpa using hpe⟩
    rw [if_pos hany, if_pos hin]
  · have hnin : p.2 ∉ vs.map Prod.fst := by
      intro hin
      obtain ⟨e, he, hpe⟩ := List.mem_map.mp hin
      exact hany (List.any_eq_true.mpr ⟨e, he, by simpa using hpe⟩)
    rw [if_neg hany, if_neg hnin, List.map_append]
    rfl

theorem fold_buildStep_keys_mem {L : ℕ} :
    ∀ (ps : List (ℕ × Item)) (vs : List (Item × List ℚ)) (k : Item),
      k ∈ (List.foldl (buildStep L) vs ps).map Prod.fst ↔
      (k ∈ vs.map Prod.fst ∨ k ∈ ps.map Prod.snd) := by
  intro ps
  induction ps with
  | nil => intro vs k; simp
  | cons q qs ih =>
      intro vs k
      rw [List.foldl_cons, ih]
      rw [buildStep_keys]
      by_cases hin : q.2 ∈ vs.map Prod.fst
      · rw [if_pos hin]
        constructor
        · rintro (h | h)
          · exact Or.inl h
          · exact Or.inr (List.mem_cons_of_mem _ h)
        · rintro (h | h)
          · exact Or.inl h
          · rcases List.mem_cons.mp h with rfl | h
            · exact Or.inl hin
            · exact Or.inr h
      · rw [if_neg hin]
        constructor
        · rintro (h | h)
          · rcases List.mem_append.mp h with h | h
            · exact Or.inl h
            · exact Or.inr (List.mem_cons.mpr (Or.inl (List.mem_singleton.mp h)))
          · exact Or.inr (List.mem_cons_of_mem _ h)
        · rintro (h | h)
          · exact Or.inl (List.mem_append.mpr (Or.inl h))
          · rcases List.mem_cons.mp h with rfl | h
            · exact Or.inl (List.mem_append.mpr (Or.inr (List.mem_singleton.mpr rfl)))
            · exact Or.inr h

theorem buildVectors_keys_mem {L : ℕ} {items : List Item} {k : Item} :
    k ∈ (buildVectors L items).map Prod.fst ↔ k ∈ items := by
  unfold buildVectors
  rw [fold_buildStep_keys_mem]
  simp [List.enum_map_snd]

theorem buildVectors_find?_none {L : ℕ} {items : List Item} {it : Item} :
    ((buildVectors L items).find? fun e => e.1 = it) = none ↔ it ∉ items := by
  rw [List.find?_eq_none]
  constructor
  · intro h hit
    obtain ⟨e, he, hke⟩ := List.mem_map.mp (buildVectors_keys_mem.mpr hit)
    exact h e he (by simp [hke])
  · intro hnotin e he
    simp only [decide_eq_true_eq]
    intro hke
    exact hnotin (buildVectors_keys_mem.mp (List.mem_map.mpr ⟨e, he, hke⟩))

theorem buildStep_keys_nodup {L : ℕ} {vs : List (Item × List ℚ)} {p : ℕ × Item}
    (h : (vs.map Prod.fst).Nodup) : ((buildStep L vs p).map Prod.fst).Nodup := by
  rw [buildStep_keys]
  by_cases hin : p.2 ∈ vs.map Prod.fst
  · rw [if_pos hin]; exact h
  · rw [if_neg hin]
    rw [List.nodup_append]
    exact ⟨h, List.nodup_singleton _, by simpa [List.disjoint_singleton] using hin⟩

theorem fold_buildStep_keys_nodup {L : ℕ} :
    ∀ (ps : List (ℕ × Item)) (vs : List (Item × List ℚ)),
      (vs.map Prod.fst).Nodup →
      ((List.foldl (buildStep L) vs ps).map Prod.fst).Nodup := by
  intro ps
  induction ps with
  | nil => intro vs h; simpa using h
  | cons q qs ih =>
      intro vs h
      exact ih (buildStep L vs q) (buildStep_keys_nodup h)

theorem buildVectors_keys_nodup {L : ℕ} {items : List Item} :
    ((buildVectors L items).map Prod.fst).Nodup :=
  fold_buildStep_keys_nodup items.enum [] (by simp)

theorem find?_of_mem_nodup {vs : List (Item × List ℚ)} {k : Item} {v : List ℚ}
    (hnd : (vs.map Prod.fst).Nodup) (h : (k, v) ∈ vs) :
    (vs.find? fun e => e.1 = k) = some (k, v) := by
  induction vs with
  | nil => cases h
  | cons e es ih =>
      have hnd2 : e.1 ∉ es.map Prod.fst ∧ (es.map Prod.fst).Nodup := by
        rw [List.map_cons] at hnd
        exact List.nodup_cons.mp hnd
      rcases List.mem_cons.mp h with rfl | hmem
      · simp [List.find?_cons]
      · have hk : k ∈ es.map Prod.fst := List.mem_map.mpr ⟨(k, v), hmem, rfl⟩
        have hne : ¬(e.1 = k) := fun heq => hnd2.1 (heq ▸ hk)
        rw [List.find?_cons]
        simp only [decide_eq_false hne, cond_false]
        exact ih hnd2.2 hmem

theorem getD_set_self {l : List ℚ} {i : ℕ} (h : i < l.length) :
    (l.set i 1).getD i 0 = 1 := by
  rw [List.getD_eq_getElem?_getD, List.getElem?_set_self (by simpa using h)]
  rfl

theorem getD_set_ne {l : List ℚ} {i j : ℕ} (h : i ≠ j) (a : ℚ) :
    (l.set i a).getD j 0 = l.getD j 0 := by
  rw [List.getD_eq_getElem?_getD, List.getElem?_set_ne h, ← List.getD_eq_getElem?_getD]

theorem fold_preserves_mark {L : ℕ} :
    ∀ (ps : List (ℕ × Item)) (vs : List (Item × List ℚ)) (k : Item) (v : List ℚ) (pos : ℕ),
      (∀ q ∈ ps, pos < (q : ℕ × Item).1) → (k, v) ∈ vs → v.getD pos 0 = 1 → v.length = L →
      ∃ v', (k, v') ∈ List.foldl (buildStep L) vs ps ∧ v'.getD pos 0 = 1 ∧ v'.length = L := by
  intro ps
  induction ps with
  | nil => intro vs k v pos _ hmem hmark hlen; exact ⟨v, by simpa using hmem, hmark, hlen⟩
  | cons q qs ih =>
      intro vs k v pos hpos hmem hmark hlen
      have hmem2 : (k, v) ∈ (if vs.any fun e => e.1 = q.2 then vs
          else vs ++ [(q.2, List.replicate L 0)]) := by
        by_cases hany : vs.any fun e => e.1 = q.2
        · rwa [if_pos hany]
        · rw [if_neg hany]; exact List.mem_append.mpr (Or.inl hmem)
      have hstep := setLoc_mem hmem2 q.2 q.1
      have hposq : pos < q.1 := hpos q (List.mem_cons_self q qs)
      by_cases hk : k = q.2
      · rw [if_pos hk] at hstep
        refine ih (buildStep L vs q) k (v.set q.1 1) pos
          (fun r hr => hpos r (List.mem_cons_of_mem q hr)) hstep ?_ ?_
        · rw [getD_set_ne (by omega) 1]; exact hmark
        · rw [List.length_set]; exact hlen
      · rw [if_neg hk] at hstep
        exact ih (buildStep L vs q) k v pos
          (fun r hr => hpos r (List.mem_cons_of_mem q hr)) hstep hmark hlen

theorem fold_creates_mark {L : ℕ} :
    ∀ (rest : List Item) (n : ℕ) (vs : List (Item × List ℚ)) (idx : ℕ)
      (hidx : idx < rest.length),
      (∀ e ∈ vs, (e.2 : List ℚ).length = L) → n + idx < L →
      ∃ v', (rest.get ⟨idx, hidx⟩, v') ∈
              List.foldl (buildStep L) vs (List.enumFrom n rest) ∧
            v'.getD (n + idx) 0 = 1 ∧ v'.length = L := by
  intro rest
  induction rest with
  | nil => intro n vs idx hidx; exact absurd hidx (by simp)
  | cons it its ih =>
      intro n vs idx hidx hlen hnL
      rw [List.enumFrom_cons]
      match idx with
      | 0 =>
          simp only [List.get]
          have hstep : ∃ w, (it, w) ∈ buildStep L vs (n, it) ∧
              w.getD n 0 = 1 ∧ w.length = L := by
            by_cases hany : vs.any fun e => e.1 = (n, it).2
            · obtain ⟨e, he, hpe⟩ := List.any_eq_true.mp hany
              have he1 : e.1 = it := by simpa using hpe
              have hw : (e.1, e.2.set n 1) ∈ buildStep L vs (n, it) := by
                unfold buildStep
                rw [if_pos hany]
                have hsl := setLoc_mem (show (e.1, e.2) ∈ vs from he) (n, it).2 (n, it).1
                rwa [if_pos he1] at hsl
              refine ⟨e.2.set n 1, he1 ▸ hw, ?_, ?_⟩
              · exact getD_set_self (by rw [hlen e he]; omega)
              · rw [List.length_set]; exact hlen e he
            · have hmem : (it, List.replicate L 0) ∈
                  (vs ++ [((n, it).2, List.replicate L 0)]) :=
                List.mem_append.mpr (Or.inr (by simp))
              have hw := setLoc_mem hmem (n, it).2 (n, it).1
              rw [if_pos rfl] at hw
              unfold buildStep
              rw [if_neg hany]
              refine ⟨(List.replicate L 0).set n 1, hw, ?_, ?_⟩
              · exact getD_set_self (by rw [List.length_replicate]; omega)
              · rw [List.length_set, List.length_replicate]
          obtain ⟨w, hw, hmark, hwlen⟩ := hstep
          rw [List.foldl_cons]
          have hge : ∀ q ∈ List.enumFrom (n + 1) its, n < (q : ℕ × Item).1 := by
            intro q hq
            have := List.le_fst_of_mem_enumFrom (show (q.1, q.2) ∈ _ from hq)
            omega
          have hres := fold_preserves_mark (List.enumFrom (n + 1) its)
            (buildStep L vs (n, it)) it w n hge hw hmark hwlen
          simpa using hres
      | idx + 1 =>
          rw [List.foldl_cons, List.get_cons_succ]
          have hres := ih (n + 1) (buildStep L vs (n, it)) idx (by simpa using hidx)
            (buildStep_len hlen) (by omega)
          obtain ⟨v', hv, hm, hl⟩ := hres
          exact ⟨v', hv, by rw [show n + 1 + idx = n + (idx + 1) by omega] at hm; exact hm, hl⟩

theorem buildVectors_mark {items : List Item} {s : ℕ} (hs : s < items.length) :
    ∃ v, (items.get ⟨s, hs⟩, v) ∈ buildVectors items.length items ∧
         v.getD s 0 = 1 ∧ v.length = items.length := by
  have h2 := fold_creates_mark items 0 [] s hs (by simp)
    (show (0 : ℕ) + s < items.length by omega)
  simpa [buildVectors, List.enum] using h2

theorem buildVectors_find?_mark {items : List Item} {s : ℕ} (hs : s < items.length) :
    ∃ v, ((buildVectors items.length items).find?
            fun e => e.1 = items.get ⟨s, hs⟩) = some (items.get ⟨s, hs⟩, v) ∧
          v.getD s 0 = 1 ∧ v.length = items.length := by
  obtain ⟨v, hmem, hmark, hlen⟩ := buildVectors_mark hs
  exact ⟨v, find?_of_mem_nodup buildVectors_keys_nodup hmem, hmark, hlen⟩

/-! Destructors for the validated constructors. -/

theorem make_ok_dest {items : List Item} {ad : ℤ} {mu th : ℚ} {m : MisMisQuote}
    (h : MisMisQuote.make items ad mu th = .ok m) :
    m.items = items ∧ m.allowed_differences = ad ∧ m.nomatch_multiplier = mu ∧
    m.threshold = th ∧ m.Wf := by
  unfold MisMisQuote.make at h
  by_cases h1 : items = []
  · rw [if_pos h1] at h; exact absurd h (by simp)
  rw [if_neg h1] at h
  by_cases h2 : ad < 0
  · rw [if_pos h2] at h; exact absurd h (by simp)
  rw [if_neg h2] at h
  by_cases h3 : mu < 0 ∨ 1 ≤ mu
  · rw [if_pos h3] at h; exact absurd h (by simp)
  rw [if_neg h3] at h
  by_cases h4 : th < 0 ∨ 1 < th
  · rw [if_pos h4] at h; exact absurd h (by simp)
  rw [if_neg h4] at h
  have hm := Except.ok.inj h
  push_neg at h3 h4
  subst hm
  exact ⟨rfl, rfl, rfl, rfl, h1, not_lt.mp h2, h3.1, h3.2, h4.1, h4.2, rfl⟩

theorem tracker_make_ok {L : ℕ} {ad : ℤ} {mu th : ℚ} (hL : ¬L = 0)
    (had0 : ¬ad < 0) (had : ¬(L : ℤ) ≤ ad) (hmu : ¬(mu < 0 ∨ 1 ≤ mu))
    (hth : ¬(th < 0 ∨ 1 < th)) :
    MMQTracker.make L ad mu th = .ok ⟨L, ad, mu, th, []⟩ := by
  unfold MMQTracker.make
  rw [if_neg hL, if_neg had0, if_neg had, if_neg hmu, if_neg hth]

theorem tracker_make_from_wf {m : MisMisQuote} (hwf : m.Wf)
    (had : m.allowed_differences < (m.items.length : ℤ)) :
    MMQTracker.make m.items.length m.allowed_differences m.nomatch_multiplier
      m.threshold =
      .ok ⟨m.items.length, m.allowed_differences, m.nomatch_multiplier,
           m.threshold, []⟩ := by
  obtain ⟨hne, had0, hmu0, hmu1, hth0, hth1, _⟩ := hwf
  refine tracker_make_ok ?_ (by omega) (by omega) ?_ ?_
  · simpa [List.length_eq_zero] using hne
  · push_neg
    exact ⟨hmu0, hmu1⟩
  · push_neg
    exact ⟨hth0, hth1⟩

theorem make_ok_of_valid {items : List Item} {ad : ℤ} {mu th : ℚ}
    (hne : ¬items = []) (had : ¬ad < 0) (hmu : ¬(mu < 0 ∨ 1 ≤ mu))
    (hth : ¬(th < 0 ∨ 1 < th)) :
    MisMisQuote.make items ad mu th =
      .ok ⟨items, ad, mu, th, buildVectors items.length items⟩ := by
  unfold MisMisQuote.make
  rw [if_neg hne, if_neg had, if_neg hmu, if_neg hth]

theorem bind_eq_ok {α β : Type} {x : Except Err α} {f : α → Except Err β} {b : β}
    (h : Bind.bind x f = .ok b) : ∃ a, x = .ok a ∧ f a = .ok b := by
  cases x with
  | ok a => exact ⟨a, rfl, h⟩
  | error e => exact absurd h (by rw [errBind]; simp)

theorem toSingles_length (k : Item) : (toSingles k).length = k.length := by
  simp [toSingles]

theorem toSingles_sing {k : Item} : ∀ x ∈ toSingles k, (x : Item).length = 1 := by
  intro x hx
  obtain ⟨c, _, rfl⟩ := List.mem_map.mp hx
  rfl

theorem find?_key_some {vs : List (Item × List ℚ)} {k : Item}
    (h : ∃ e ∈ vs, (e : Item × List ℚ).1 = k) :
    ∃ e', (vs.find? fun e => e.1 = k) = some e' ∧ e' ∈ vs ∧
          (e' : Item × List ℚ).1 = k := by
  obtain ⟨e, he, hk⟩ := h
  have hsome : (vs.find? fun e => e.1 = k).isSome :=
    List.find?_isSome.mpr ⟨e, he, by simp [hk]⟩
  obtain ⟨e', he'⟩ := Option.isSome_iff_exists.mp hsome
  exact ⟨e', he', List.mem_of_find?_eq_some he', by simpa using List.find?_some he'⟩

/-! Shape facts about the fuzzy-candidate loop. -/

theorem potentialsLoopF_src {fn : MisMisQuote → List Item → Except Err (List (ℕ × ℚ))}
    {m : MisMisQuote} {elts : List Item} :
    ∀ (vs : List (Item × List ℚ)) (res : List (Item × ℚ)),
      potentialsLoopF fn m elts vs = .ok res →
      ∀ p ∈ res, (∃ e ∈ vs, (e : Item × List ℚ).1 = p.1) ∧
        ∃ (sub : MisMisQuote) (r : ℕ × ℚ) (rs : List (ℕ × ℚ)),
          MisMisQuote.make (toSingles p.1) m.allowed_differences
            m.nomatch_multiplier m.threshold = .ok sub ∧
          fn sub elts = .ok (r :: rs) ∧ p.2 = r.2 := by
  intro vs
  induction vs with
  | nil =>
      intro res h p hp
      simp only [potentialsLoopF] at h
      obtain rfl : ([] : List (Item × ℚ)) = res := by simpa using h
      cases hp
  | cons e rest ih =>
      intro res h p hp
      simp only [potentialsLoopF] at h
      by_cases hc : 1 < e.1.length
      · rw [if_pos hc] at h
        obtain ⟨sub, hsub, h2⟩ := bind_eq_ok h
        obtain ⟨res2, hres2, h3⟩ := bind_eq_ok h2
        obtain ⟨acc, hacc, h4⟩ := bind_eq_ok h3
        obtain ⟨tail, htail, h5⟩ := bind_eq_ok h4
        obtain rfl : acc ++ tail = res := by simpa using h5
        rcases List.mem_append.mp hp with hq | hq
        · match res2 with
          | [] =>
              obtain rfl : ([] : List (Item × ℚ)) = acc := Except.ok.inj hacc
              cases hq
          | r :: rs =>
              obtain rfl : [(e.1, r.2)] = acc := Except.ok.inj hacc
              obtain rfl := List.mem_singleton.mp hq
              exact ⟨⟨e, List.mem_cons_self e rest, rfl⟩, sub, r, rs, hsub, hres2, rfl⟩
        · obtain ⟨⟨e', he', hk⟩, hrest⟩ := ih tail htail p hq
          exact ⟨⟨e', List.mem_cons_of_mem e he', hk⟩, hrest⟩
      · rw [if_neg hc] at h
        obtain ⟨acc, hacc, h2⟩ := bind_eq_ok h
        obtain ⟨tail, htail, h3⟩ := bind_eq_ok h2
        obtain rfl : acc ++ tail = res := by simpa using h3
        obtain rfl : ([] : List (Item × ℚ)) = acc := Except.ok.inj hacc
        rw [List.nil_append] at hp
        obtain ⟨⟨e', he', hk⟩, hrest⟩ := ih tail htail p hp
        exact ⟨⟨e', List.mem_cons_of_mem e he', hk⟩, hrest⟩

theorem potentialsLoopF_sing_ok
    {fn : MisMisQuote → List Item → Except Err (List (ℕ × ℚ))}
    {m : MisMisQuote} {elts : List Item} :
    ∀ (vs : List (Item × List ℚ)), (∀ e ∈ vs, ((e : Item × List ℚ).1).length ≤ 1) →
      potentialsLoopF fn m elts vs = .ok [] := by
  intro vs
  induction vs with
  | nil => simp [potentialsLoopF]
  | cons e rest ih =>
      intro h
      simp only [potentialsLoopF]
      rw [if_neg (by have := h e (List.mem_cons_self e rest); omega)]
      rw [show (pure [] : Except Err (List (Item × ℚ))) = .ok [] from rfl, okBind]
      rw [ih fun x hx => h x (List.mem_cons_of_mem e hx), okBind]
      rfl

/-! Length of every vector produced by `get_locmap`. -/

theorem get_locmap_len {fn : MisMisQuote → List Item → Except Err (List (ℕ × ℚ))}
    {m : MisMisQuote} (hwf : m.Wf) {item : Item} {v : List ℚ}
    (h : get_locmapF fn m item = .ok v) : v.length = m.items.length := by
  have hvec := hwf.2.2.2.2.2.2
  unfold get_locmapF at h
  match hfind : m.vectors.find? fun e => e.1 = item with
  | some e =>
      rw [hfind] at h
      obtain rfl : e.2 = v := by simpa using h
      have hmem := List.mem_of_find?_eq_some hfind
      rw [hvec] at hmem
      exact buildVectors_len e hmem
  | none =>
      rw [hfind] at h
      obtain ⟨ps, hps, h2⟩ := bind_eq_ok h
      match hsort : sortByScore ps with
      | [] =>
          rw [hsort] at h2
          obtain rfl : List.replicate m.items.length (0 : ℚ) = v := by simpa using h2
          exact List.length_replicate _ _
      | w :: rest =>
          rw [hsort] at h2
          have hwps : w ∈ ps := mem_sortByScore.mp (hsort ▸ List.mem_cons_self w rest)
          obtain ⟨hkey, _⟩ := potentialsLoopF_src m.vectors ps hps w hwps
          obtain ⟨e', hfind', hmem', hk'⟩ := find?_key_some hkey
          have hv : v = ((((m.vectors.find? fun e => e.1 = w.1).map fun x => x.2).getD
              []).map fun x => x * w.2) := by
            have h2x : Except.ok (((((m.vectors.find? fun e => e.1 = w.1).map
                fun x => x.2).getD []).map fun x => x * w.2)) = Except.ok v := h2
            simpa using h2x.symm
          rw [hfind'] at hv
          rw [hv]
          simp only [Option.map_some, Option.getD_some, List.length_map]
          rw [hvec] at hmem'
          exact buildVectors_len e' hmem'

/-! The scan loop succeeds when every alignment vector has the right
length, and the tracker history stays well-formed. -/

theorem scanLoopF_ok {fn : MisMisQuote → List Item → Except Err (List (ℕ × ℚ))}
    {m : MisMisQuote}
    (hloc : ∀ it : Item, ∃ v, get_locmapF fn m it = .ok v ∧
            v.length = m.items.length) :
    ∀ (ref : List Item) (t : MMQTracker), t.Wf → t.length = m.items.length →
      ∀ i : ℕ, ∃ res t', scanLoopF fn m t i ref = .ok (res, t') ∧ t'.Wf ∧
        t'.length = m.items.length := by
  intro ref
  induction ref with
  | nil =>
      intro t hwt hlen i
      exact ⟨[], t, by simp [scanLoopF], hwt, hlen⟩
  | cons r rs ih =>
      intro t hwt hlen i
      obtain ⟨v, hv, hvlen⟩ := hloc r
      obtain ⟨s, hs⟩ := shiftand_eq_ok t v (by rw [hvlen, hlen])
      set t1 : MMQTracker :=
        { t with tracker := t.tracker ++ [t._and_tracker t._shift_last_tracker v] } with ht1
      have hd := shiftand_ok_dest t v s t1 hwt hs
      obtain ⟨res, t', hscan, hwt', hlen'⟩ :=
        ih t1 hd.1 (by rw [hd.2.1, hlen]) (i + 1)
      refine ⟨(i, s) :: res, t', ?_, hwt', hlen'⟩
      simp only [scanLoopF]
      rw [hv, okBind, hs, okBind, hscan, okBind]

theorem pureBind {α β : Type} (v : α) (f : α → Except Err β) :
    Bind.bind (pure v : Except Err α) f = f v := rfl

theorem wf_keys_in_items {m : MisMisQuote} (hwf : m.Wf) :
    ∀ e ∈ m.vectors, (e : Item × List ℚ).1 ∈ m.items := by
  intro e he
  rw [hwf.2.2.2.2.2.2] at he
  exact buildVectors_keys_mem.mp (List.mem_map.mpr ⟨e, he, rfl⟩)

theorem get_locmapF_sing_ok {fn : MisMisQuote → List Item → Except Err (List (ℕ × ℚ))}
    {m : MisMisQuote} (hwf : m.Wf)
    (hsing : ∀ k ∈ m.items, (k : Item).length ≤ 1) (it : Item) :
    ∃ v, get_locmapF fn m it = .ok v ∧ v.length = m.items.length := by
  match hfind : m.vectors.find? fun e => e.1 = it with
  | some e =>
      refine ⟨e.2, by unfold get_locmapF; rw [hfind], ?_⟩
      have hmem := List.mem_of_find?_eq_some hfind
      rw [hwf.2.2.2.2.2.2] at hmem
      exact buildVectors_len e hmem
  | none =>
      refine ⟨List.replicate m.items.length 0, ?_, List.length_replicate _ _⟩
      unfold get_locmapF
      rw [hfind, potentialsLoopF_sing_ok m.vectors
        (fun e he => hsing e.1 (wf_keys_in_items hwf e he)), okBind]
      rfl

theorem find_in_sing_ok {m : MisMisQuote} (hwf : m.Wf)
    (hsing : ∀ k ∈ m.items, (k : Item).length ≤ 1)
    (had : m.allowed_differences < (m.items.length : ℤ)) (fuel : ℕ)
    (ref : List Item) : ∃ res, find_in (fuel + 1) m ref = .ok res := by
  rw [find_in_succ]
  unfold find_inF
  rw [tracker_make_from_wf hwf had, okBind]
  obtain ⟨res, t', hscan, _, _⟩ := scanLoopF_ok
    (fun it2 => get_locmapF_sing_ok hwf hsing it2) ref
    ⟨m.items.length, m.allowed_differences, m.nomatch_multiplier, m.threshold, []⟩
    (fun st h => absurd h (List.not_mem_nil st)) rfl 0
  rw [hscan, okBind]
  exact ⟨_, rfl⟩

theorem potentialsLoopF_two_ok {fuel : ℕ} {m : MisMisQuote} (hwf : m.Wf)
    (hcomp : ∀ k ∈ m.items, 1 < (k : Item).length →
      m.allowed_differences < ((k : Item).length : ℤ)) (elts : List Item) :
    ∀ vs : List (Item × List ℚ), (∀ e ∈ vs, (e : Item × List ℚ).1 ∈ m.items) →
      ∃ ps, potentialsLoopF (find_in (fuel + 1)) m elts vs = .ok ps := by
  intro vs
  induction vs with
  | nil => exact fun _ => ⟨[], by simp [potentialsLoopF]⟩
  | cons e rest ih =>
      intro hkeys
      obtain ⟨tailps, htail⟩ := ih fun x hx => hkeys x (List.mem_cons_of_mem e hx)
      simp only [potentialsLoopF]
      by_cases hc : 1 < e.1.length
      · rw [if_pos hc]
        have hne : ¬(toSingles e.1 = []) := by
          intro h0
          have hl := toSingles_length e.1
          rw [h0] at hl
          simp at hl
          omega
        have hmk := @make_ok_of_valid (toSingles e.1) m.allowed_differences
          m.nomatch_multiplier m.threshold hne (by have := hwf.2.1; omega)
          (by push_neg; exact ⟨hwf.2.2.1, hwf.2.2.2.1⟩)
          (by push_neg; exact ⟨hwf.2.2.2.2.1, hwf.2.2.2.2.2.1⟩)
        rw [hmk, okBind]
        have hsubwf := (make_ok_dest hmk).2.2.2.2
        have hadk : m.allowed_differences < ((e.1.length : ℕ) : ℤ) :=
          hcomp e.1 (hkeys e (List.mem_cons_self e rest)) hc
        obtain ⟨res2, hres2⟩ := find_in_sing_ok hsubwf
          (fun k hk => le_of_eq (toSingles_sing k hk))
          (by rw [toSingles_length]; exact hadk) fuel elts
        rw [hres2, okBind, pureBind, htail, okBind]
        exact ⟨_, rfl⟩
      · rw [if_neg hc, pureBind, htail, okBind]
        exact ⟨_, rfl⟩

theorem get_locmapF_two_ok {fuel : ℕ} {m : MisMisQuote} (hwf : m.Wf)
    (hcomp : ∀ k ∈ m.items, 1 < (k : Item).length →
      m.allowed_differences < ((k : Item).length : ℤ)) (it : Item) :
    ∃ v, get_locmapF (find_in (fuel + 1)) m it = .ok v ∧
         v.length = m.items.length := by
  match hfind : m.vectors.find? fun e => e.1 = it with
  | some e =>
      refine ⟨e.2, by unfold get_locmapF; rw [hfind], ?_⟩
      have hmem := List.mem_of_find?_eq_some hfind
      rw [hwf.2.2.2.2.2.2] at hmem
      exact buildVectors_len e hmem
  | none =>
      obtain ⟨ps, hps⟩ := potentialsLoopF_two_ok hwf hcomp (toSingles it)
        m.vectors (wf_keys_in_items hwf)
      match hsort : sortByScore ps with
      | [] =>
          refine ⟨List.replicate m.items.length 0, ?_, List.length_replicate _ _⟩
          unfold get_locmapF
          rw [hfind, hps, okBind, hsort]
      | w :: rest =>
          have hwps : w ∈ ps := mem_sortByScore.mp (hsort ▸ List.mem_cons_self w rest)
          obtain ⟨hkey, _⟩ := potentialsLoopF_src m.vectors ps hps w hwps
          obtain ⟨e', hfind', hmem', hk'⟩ := find?_key_some hkey
          refine ⟨((((m.vectors.find? fun e => e.1 = w.1).map fun x => x.2).getD
            []).map fun x => x * w.2), ?_, ?_⟩
          · unfold get_locmapF
            rw [hfind, hps, okBind, hsort]
          · rw [hfind']
            simp only [Option.map_some, Option.getD_some, List.length_map]
            rw [hwf.2.2.2.2.2.2] at hmem'
            exact buildVectors_len e' hmem'

theorem find_in_two_ok {m : MisMisQuote} (hwf : m.Wf)
    (had : m.allowed_differences < (m.items.length : ℤ))
    (hcomp : ∀ k ∈ m.items, 1 < (k : Item).length →
      m.allowed_differences < ((k : Item).length : ℤ)) (fuel : ℕ)
    (ref : List Item) : ∃ res, find_in (fuel + 2) m ref = .ok res := by
  rw [show fuel + 2 = (fuel + 1) + 1 by omega, find_in_succ]
  unfold find_inF
  rw [tracker_make_from_wf hwf had, okBind]
  obtain ⟨res, t', hscan, _, _⟩ := scanLoopF_ok
    (fun it2 => get_locmapF_two_ok hwf hcomp it2) ref
    ⟨m.items.length, m.allowed_differences, m.nomatch_multiplier, m.threshold, []⟩
    (fun st h => absurd h (List.not_mem_nil st)) rfl 0
  rw [hscan, okBind]
  exact ⟨_, rfl⟩

/-! The internal-consistency fault `lengthMismatch` is unreachable. -/

theorem bind_eq_error {α β : Type} {x : Except Err α} {f : α → Except Err β} {e : Err}
    (h : Bind.bind x f = .error e) :
    x = .error e ∨ ∃ a, x = .ok a ∧ f a = .error e := by
  cases x with
  | error e2 =>
      left
      rw [errBind] at h
      exact congrArg Except.error (Except.error.inj h)
  | ok a => exact Or.inr ⟨a, rfl, h⟩

theorem make_no_LM {items : List Item} {ad : ℤ} {mu th : ℚ} :
    MisMisQuote.make items ad mu th ≠ .error .lengthMismatch := by
  unfold MisMisQuote.make
  split_ifs <;> simp

theorem tracker_make_no_LM {L : ℕ} {ad : ℤ} {mu th : ℚ} :
    MMQTracker.make L ad mu th ≠ .error .lengthMismatch := by
  unfold MMQTracker.make
  split_ifs <;> simp

theorem tracker_make_ok_dest {L : ℕ} {ad : ℤ} {mu th : ℚ} {t : MMQTracker}
    (h : MMQTracker.make L ad mu th = .ok t) : t = ⟨L, ad, mu, th, []⟩ := by
  unfold MMQTracker.make at h
  by_cases h1 : L = 0
  · rw [if_pos h1] at h; exact Except.noConfusion h
  rw [if_neg h1] at h
  by_cases h2 : ad < 0
  · rw [if_pos h2] at h; exact Except.noConfusion h
  rw [if_neg h2] at h
  by_cases h3 : (L : ℤ) ≤ ad
  · rw [if_pos h3] at h; exact Except.noConfusion h
  rw [if_neg h3] at h
  by_cases h4 : mu < 0 ∨ 1 ≤ mu
  · rw [if_pos h4] at h; exact Except.noConfusion h
  rw [if_neg h4] at h
  by_cases h5 : th < 0 ∨ 1 < th
  · rw [if_pos h5] at h; exact Except.noConfusion h
  rw [if_neg h5] at h
  exact (Except.ok.inj h).symm

theorem potentialsLoopF_no_LM
    {fn : MisMisQuote → List Item → Except Err (List (ℕ × ℚ))}
    {m : MisMisQuote} {elts : List Item}
    (hfn : ∀ sub : MisMisQuote, sub.Wf → ∀ elts2 : List Item,
      fn sub elts2 ≠ .error .lengthMismatch) :
    ∀ vs : List (Item × List ℚ),
      potentialsLoopF fn m elts vs ≠ .error .lengthMismatch := by
  intro vs
  induction vs with
  | nil => simp [potentialsLoopF]
  | cons e rest ih =>
      intro h
      simp only [potentialsLoopF] at h
      by_cases hc : 1 < e.1.length
      · rw [if_pos hc] at h
        rcases bind_eq_error h with hmk | ⟨sub, hsub, h2⟩
        · exact make_no_LM hmk
        · rcases bind_eq_error h2 with hfn2 | ⟨res2, hres2, h3⟩
          · exact hfn sub (make_ok_dest hsub).2.2.2.2 elts hfn2
          · rcases bind_eq_error h3 with hp | ⟨y, hy, h4⟩
            · exact Except.noConfusion hp
            · rcases bind_eq_error h4 with ht | ⟨tail, htail, h5⟩
              · exact ih ht
              · exact Except.noConfusion h5
      · rw [if_neg hc] at h
        rcases bind_eq_error h with hp | ⟨y, hy, h2⟩
        · exact Except.noConfusion hp
        · rcases bind_eq_error h2 with ht | ⟨tail, htail, h3⟩
          · exact ih ht
          · exact Except.noConfusion h3

theorem get_locmapF_no_LM
    {fn : MisMisQuote → List Item → Except Err (List (ℕ × ℚ))}
    {m : MisMisQuote} {it : Item}
    (hfn : ∀ sub : MisMisQuote, sub.Wf → ∀ elts2 : List Item,
      fn sub elts2 ≠ .error .lengthMismatch) :
    get_locmapF fn m it ≠ .error .lengthMismatch := by
  intro h
  unfold get_locmapF at h
  match hfind : m.vectors.find? fun e => e.1 = it with
  | some e => rw [hfind] at h; exact absurd h (by simp)
  | none =>
      rw [hfind] at h
      rcases bind_eq_error h with hp | ⟨ps, hps, h2⟩
      · exact potentialsLoopF_no_LM hfn m.vectors hp
      · match hsort : sortByScore ps with
        | [] => rw [hsort] at h2; exact absurd h2 (by simp)
        | w :: rest => rw [hsort] at h2; exact absurd h2 (by simp)

theorem scanLoopF_no_LM
    {fn : MisMisQuote → List Item → Except Err (List (ℕ × ℚ))}
    {m : MisMisQuote} (hwf : m.Wf)
    (hfn : ∀ sub : MisMisQuote, sub.Wf → ∀ elts2 : List Item,
      fn sub elts2 ≠ .error .lengthMismatch) :
    ∀ (ref : List Item) (t : MMQTracker), t.length = m.items.length → ∀ i : ℕ,
      scanLoopF fn m t i ref ≠ .error .lengthMismatch := by
  intro ref
  induction ref with
  | nil => intro t _ i h; simp [scanLoopF] at h
  | cons r rs ih =>
      intro t hlen i h
      simp only [scanLoopF] at h
      rcases bind_eq_error h with hloc | ⟨v, hv, h2⟩
      · exact get_locmapF_no_LM hfn hloc
      · rcases bind_eq_error h2 with hsh | ⟨st, hst, h3⟩
        · have hvlen : v.length = m.items.length := get_locmap_len hwf hv
          obtain ⟨s, hs⟩ := shiftand_eq_ok t v (by rw [hvlen, hlen])
          rw [hs] at hsh
          exact absurd hsh (by simp)
        · rcases bind_eq_error h3 with hrec | ⟨pr, hpr, h4⟩
          · have hst2 : t.shiftand v = .ok (st.1, st.2) := hst
            have htlen : st.2.length = t.length := by
              unfold MMQTracker.shiftand at hst2
              by_cases hcnd : v.length ≠ t.length
              · rw [if_pos hcnd] at hst2; exact absurd hst2 (by simp)
              · rw [if_neg hcnd] at hst2
                have hsnd := congrArg Prod.snd (Except.ok.inj hst2)
                rw [← hsnd]
            exact ih st.2 (by rw [htlen, hlen]) (i + 1) hrec
          · exact absurd h4 (by simp)

theorem find_in_no_LM :
    ∀ (fuel : ℕ) (m : MisMisQuote), m.Wf → ∀ ref : List Item,
      find_in fuel m ref ≠ .error .lengthMismatch := by
  intro fuel
  induction fuel with
  | zero => intro m _ ref h; rw [find_in_zero] at h; exact absurd h (by simp)
  | succ fuel ih =>
      intro m hwf ref h
      rw [find_in_succ] at h
      unfold find_inF at h
      rcases bind_eq_error h with hmk | ⟨t, ht, h2⟩
      · exact tracker_make_no_LM hmk
      · rcases bind_eq_error h2 with hscan | ⟨pr, hpr, h3⟩
        · have ht2 := tracker_make_ok_dest ht
          subst ht2
          exact scanLoopF_no_LM hwf (fun sub hsub elts2 => ih sub hsub elts2) ref
            _ rfl 0 hscan
        · exact absurd h3 (by simp)

/-! Confidence scores stay inside the unit interval. -/

theorem getD_prop {α : Type} {P : α → Prop} {l : List α} {d : α}
    (h : ∀ x ∈ l, P x) (h0 : P d) (n : ℕ) : P (l.getD n d) := by
  rw [List.getD_eq_getElem?_getD]
  match he : l[n]? with
  | none => exact h0
  | some x =>
      have hx : x ∈ l := by
        obtain ⟨hn, hval⟩ := List.getElem?_eq_some.mp he
        exact hval ▸ List.getElem_mem hn
      simpa using h x hx

theorem or_bounds {a b : ℚ} {j : ℕ} (ha : 0 ≤ a) (hb0 : 0 ≤ b) :
    0 ≤ _or a b (j : ℤ) ∧ _or a b (j : ℤ) ≤ 1 := by
  unfold _or
  have hj : (0 : ℚ) < 2 + ((j : ℤ) : ℚ) := by
    have hj0 : (0 : ℚ) ≤ ((j : ℤ) : ℚ) := by exact_mod_cast Int.ofNat_nonneg j
    linarith
  constructor
  · exact le_min (by norm_num) (by positivity)
  · exact min_le_left _ _

theorem and_tracker_bounds {t : MMQTracker} {a b : List ℚ}
    (hmu0 : 0 ≤ t.nomatch_multiplier) (hmu1 : t.nomatch_multiplier < 1)
    (ha : ∀ x ∈ a, 0 ≤ x ∧ x ≤ 1) (hb : ∀ x ∈ b, 0 ≤ x ∧ x ≤ 1) :
    ∀ x ∈ t._and_tracker a b, 0 ≤ x ∧ x ≤ 1 := by
  intro x hx
  unfold MMQTracker._and_tracker at hx
  obtain ⟨i, _, rfl⟩ := List.mem_map.mp hx
  have hxv : 0 ≤ a.getD i 0 ∧ a.getD i 0 ≤ 1 :=
    getD_prop ha (by norm_num) i
  have hmv : 0 ≤ b.getD (t.length - i - 1) 0 ∧ b.getD (t.length - i - 1) 0 ≤ 1 :=
    getD_prop hb (by norm_num) (t.length - i - 1)
  by_cases h0 : b.getD (t.length - i - 1) 0 = 0
  · rw [if_pos h0]
    exact ⟨mul_nonneg hxv.1 hmu0, mul_le_one₀ hxv.2 hmu0 (le_of_lt hmu1)⟩
  · rw [if_neg h0]
    by_cases h1 : b.getD (t.length - i - 1) 0 < 1
    · rw [if_pos h1]
      exact ⟨mul_nonneg hxv.1 hmv.1, mul_le_one₀ hxv.2 hmv.1 hmv.2⟩
    · rw [if_neg h1]
      exact hxv

theorem shift_last_bounds {t : MMQTracker} (hmu0 : 0 ≤ t.nomatch_multiplier)
    (hmu1 : t.nomatch_multiplier < 1)
    (hhist : ∀ st ∈ t.tracker, ∀ x ∈ st, 0 ≤ x ∧ x ≤ 1) :
    ∀ x ∈ t._shift_last_tracker, 0 ≤ x ∧ x ≤ 1 := by
  unfold MMQTracker._shift_last_tracker
  match hlast : t.tracker.getLast? with
  | some last =>
      intro x hx
      rcases List.mem_append.mp hx with hx | hx
      · exact hhist last (List.mem_of_mem_getLast? hlast) x (List.mem_of_mem_drop hx)
      · rw [List.mem_singleton.mp hx]; norm_num
  | none =>
      intro x hx
      rcases List.mem_append.mp hx with hx | hx
      · have hfill : 0 ≤ (if 0 < t.nomatch_multiplier then t.nomatch_multiplier
            else if 0 < t.allowed_differences then
              1 / ((t.allowed_differences : ℚ) + 1) else 0) ∧
            (if 0 < t.nomatch_multiplier then t.nomatch_multiplier
            else if 0 < t.allowed_differences then
              1 / ((t.allowed_differences : ℚ) + 1) else 0) ≤ 1 := by
          by_cases hm : 0 < t.nomatch_multiplier
          · rw [if_pos hm]; exact ⟨hmu0, le_of_lt hmu1⟩
          · rw [if_neg hm]
            by_cases had : 0 < t.allowed_differences
            · rw [if_pos had]
              have h1 : (1 : ℚ) ≤ (t.allowed_differences : ℚ) + 1 := by
                have h0 : (0 : ℚ) < (t.allowed_differences : ℚ) := by exact_mod_cast had
                linarith
              constructor
              · positivity
              · rw [div_le_one (by linarith)]; linarith
            · rw [if_neg had]; norm_num
        rw [List.eq_of_mem_replicate hx]
        exact hfill
      · rw [List.mem_singleton.mp hx]; norm_num

theorem shift_old_bounds {t : MMQTracker}
    (hhist : ∀ st ∈ t.tracker, ∀ x ∈ st, 0 ≤ x ∧ x ≤ 1) (j : ℕ) :
    ∀ x ∈ t._shift_old_tracker j, 0 ≤ x ∧ x ≤ 1 := by
  intro x hx
  unfold MMQTracker._shift_old_tracker at hx
  rcases List.mem_append.mp hx with hx | hx
  · have hold : ∀ y ∈ t.tracker.reverse.getD (j + 1) [], 0 ≤ y ∧ y ≤ 1 := by
      refine getD_prop (l := t.tracker.reverse)
        (P := fun st => ∀ y ∈ st, 0 ≤ y ∧ y ≤ 1) ?_
        (fun y hy => absurd hy (List.not_mem_nil y)) (j + 1)
      intro st hst
      exact hhist st (List.mem_reverse.mp hst)
    exact hold x (List.mem_of_mem_drop hx)
  · rw [List.eq_of_mem_replicate hx]; norm_num

theorem foldl_preserve {α : Type} {P : ℚ → Prop} (f : ℚ → α → ℚ)
    (l : List α) (hf : ∀ sc, ∀ x ∈ l, P sc → P (f sc x)) :
    ∀ init : ℚ, P init → P (List.foldl f init l) := by
  induction l with
  | nil => intro init h; simpa using h
  | cons x xs ih =>
      intro init h
      rw [List.foldl_cons]
      exact ih (fun sc y hy hsc => hf sc y (List.mem_cons_of_mem x hy) hsc)
        (f init x) (hf init x (List.mem_cons_self x xs) h)

theorem shiftand_bounds {t : MMQTracker} {lm : List ℚ} {s : ℚ} {t' : MMQTracker}
    (hmu0 : 0 ≤ t.nomatch_multiplier) (hmu1 : t.nomatch_multiplier < 1)
    (hhist : ∀ st ∈ t.tracker, ∀ x ∈ st, 0 ≤ x ∧ x ≤ 1)
    (hlm : ∀ x ∈ lm, 0 ≤ x ∧ x ≤ 1)
    (h : t.shiftand lm = .ok (s, t')) :
    (0 ≤ s ∧ s ≤ 1) ∧ ∀ st ∈ t'.tracker, ∀ x ∈ st, 0 ≤ x ∧ x ≤ 1 := by
  unfold MMQTracker.shiftand at h
  by_cases hc : lm.length ≠ t.length
  · rw [if_pos hc] at h; exact Except.noConfusion h
  rw [if_neg hc] at h
  have hinj := Except.ok.inj h
  have hnew : ∀ x ∈ t._and_tracker t._shift_last_tracker lm, 0 ≤ x ∧ x ≤ 1 :=
    and_tracker_bounds hmu0 hmu1 (shift_last_bounds hmu0 hmu1 hhist) hlm
  have hhist2 : ∀ st ∈ t.tracker ++ [t._and_tracker t._shift_last_tracker lm],
      ∀ x ∈ st, 0 ≤ x ∧ x ≤ 1 := by
    intro st hst
    rcases List.mem_append.mp hst with hst | hst
    · exact hhist st hst
    · rw [List.mem_singleton.mp hst]; exact hnew
  have hp := Prod.mk.inj hinj
  refine ⟨?_, by rw [← hp.2]; exact hhist2⟩
  rw [← hp.1]
  by_cases had : t.allowed_differences ≠ 0
  · simp only [if_pos had]
    refine foldl_preserve (P := fun x => 0 ≤ x ∧ x ≤ 1) _ _ ?_ _
      (getD_prop hnew (by norm_num) 0)
    intro sc j _ hsc
    unfold MMQTracker.orStep
    have h1 := or_bounds (a := sc)
      (b := (t._and_tracker t._shift_last_tracker lm).getD (j + 1) 0)
      (j := j) hsc.1 (getD_prop hnew (by norm_num) (j + 1)).1
    set t2 : MMQTracker := { t with tracker := t.tracker ++
      [t._and_tracker t._shift_last_tracker lm] } with ht2
    by_cases hg : j < t2.tracker.length - 1
    · rw [if_pos hg]
      refine or_bounds h1.1 ?_
      refine (getD_prop (P := fun x => 0 ≤ x ∧ x ≤ 1) ?_ (by norm_num) 0).1
      have hmu0b : 0 ≤ t2.nomatch_multiplier := hmu0
      have hmu1b : t2.nomatch_multiplier < 1 := hmu1
      exact and_tracker_bounds hmu0b hmu1b (shift_old_bounds hhist2 j) hlm
    · rw [if_neg hg]
      exact h1
  · simp only [if_neg had]
    exact getD_prop hnew (by norm_num) 0

theorem shiftand_fields {t : MMQTracker} {lm : List ℚ} {s : ℚ} {t' : MMQTracker}
    (h : t.shiftand lm = .ok (s, t')) :
    t'.length = t.length ∧ t'.allowed_differences = t.allowed_differences ∧
    t'.nomatch_multiplier = t.nomatch_multiplier ∧ t'.threshold = t.threshold := by
  unfold MMQTracker.shiftand at h
  by_cases hc : lm.length ≠ t.length
  · rw [if_pos hc] at h; exact Except.noConfusion h
  · rw [if_neg hc] at h
    have hp := Prod.mk.inj (Except.ok.inj h)
    rw [← hp.2]
    exact ⟨rfl, rfl, rfl, rfl⟩

theorem get_locmapF_bounds {fn : MisMisQuote → List Item → Except Err (List (ℕ × ℚ))}
    {m : MisMisQuote} (hwf : m.Wf)
    (hfn : ∀ sub : MisMisQuote, sub.Wf → ∀ (elts2 : List Item) (res : List (ℕ × ℚ)),
      fn sub elts2 = .ok res → ∀ p ∈ res, 0 ≤ (p : ℕ × ℚ).2 ∧ p.2 ≤ 1)
    {it : Item} {v : List ℚ} (h : get_locmapF fn m it = .ok v) :
    ∀ x ∈ v, 0 ≤ x ∧ x ≤ 1 := by
  have hvec := hwf.2.2.2.2.2.2
  unfold get_locmapF at h
  match hfind : m.vectors.find? fun e => e.1 = it with
  | some e =>
      rw [hfind] at h
      obtain rfl : e.2 = v := by simpa using h
      intro x hx
      have hmem := List.mem_of_find?_eq_some hfind
      rw [hvec] at hmem
      rcases buildVectors_vals e hmem x hx with rfl | rfl <;> norm_num
  | none =>
      rw [hfind] at h
      obtain ⟨ps, hps, h2⟩ := bind_eq_ok h
      match hsort : sortByScore ps with
      | [] =>
          rw [hsort] at h2
          obtain rfl : List.replicate m.items.length (0 : ℚ) = v := by simpa using h2
          intro x hx
          rw [List.eq_of_mem_replicate hx]; norm_num
      | w :: rest =>
          rw [hsort] at h2
          have hwps : w ∈ ps := mem_sortByScore.mp (hsort ▸ List.mem_cons_self w rest)
          obtain ⟨hkey, sub, r, rs, hmk, hres, hw2⟩ :=
            potentialsLoopF_src m.vectors ps hps w hwps
          have hsubwf := (make_ok_dest hmk).2.2.2.2
          have hr := hfn sub hsubwf _ _ hres r (List.mem_cons_self r rs)
          have hwb : 0 ≤ w.2 ∧ w.2 ≤ 1 := by rw [hw2]; exact hr
          obtain ⟨e', hfind', hmem', hk'⟩ := find?_key_some hkey
          have hv : v = ((((m.vectors.find? fun e => e.1 = w.1).map fun x => x.2).getD
              []).map fun x => x * w.2) := by
            have h2x : Except.ok (((((m.vectors.find? fun e => e.1 = w.1).map
                fun x => x.2).getD []).map fun x => x * w.2)) = Except.ok v := h2
            simpa using h2x.symm
          rw [hfind'] at hv
          simp only [Option.map_some', Option.getD_some] at hv
          subst hv
          intro x hx
          obtain ⟨y, hy, rfl⟩ := List.mem_map.mp hx
          rw [hvec] at hmem'
          rcases buildVectors_vals e' hmem' y hy with rfl | rfl
          · constructor <;> simp
          · rw [one_mul]; exact hwb

theorem scanLoopF_bounds {fn : MisMisQuote → List Item → Except Err (List (ℕ × ℚ))}
    {m : MisMisQuote} (hwf : m.Wf)
    (hfn : ∀ sub : MisMisQuote, sub.Wf → ∀ (elts2 : List Item) (res : List (ℕ × ℚ)),
      fn sub elts2 = .ok res → ∀ p ∈ res, 0 ≤ (p : ℕ × ℚ).2 ∧ p.2 ≤ 1) :
    ∀ (ref : List Item) (t : MMQTracker),
      t.nomatch_multiplier = m.nomatch_multiplier →
      (∀ st ∈ t.tracker, ∀ x ∈ st, 0 ≤ x ∧ x ≤ 1) →
      ∀ (i : ℕ) (res : List (ℕ × ℚ)) (tf : MMQTracker),
        scanLoopF fn m t i ref = .ok (res, tf) →
        ∀ p ∈ res, 0 ≤ (p : ℕ × ℚ).2 ∧ p.2 ≤ 1 := by
  intro ref
  induction ref with
  | nil =>
      intro t _ _ i res tf h p hp
      simp only [scanLoopF] at h
      obtain hres := Prod.mk.inj (Except.ok.inj h)
      rw [← hres.1] at hp
      cases hp
  | cons r rs ih =>
      intro t hmul hhist i res tf h p hp
      simp only [scanLoopF] at h
      obtain ⟨v, hv, h2⟩ := bind_eq_ok h
      obtain ⟨st, hst, h3⟩ := bind_eq_ok h2
      obtain ⟨pr, hpr, h4⟩ := bind_eq_ok h3
      obtain hres := Prod.mk.inj (Except.ok.inj h4)
      have hlmb : ∀ x ∈ v, 0 ≤ x ∧ x ≤ 1 := get_locmapF_bounds hwf hfn hv
      have hst2 : t.shiftand v = .ok (st.1, st.2) := hst
      have hb := shiftand_bounds (by rw [hmul]; exact hwf.2.2.1)
        (by rw [hmul]; exact hwf.2.2.2.1) hhist hlmb hst2
      rw [← hres.1] at hp
      rcases List.mem_cons.mp hp with rfl | hp2
      · exact hb.1
      · have hmul2 : st.2.nomatch_multiplier = m.nomatch_multiplier := by
          rw [(shiftand_fields hst2).2.2.1, hmul]
        exact ih st.2 hmul2 hb.2 (i + 1) pr.1 pr.2 (by exact hpr) p hp2

theorem find_in_bounds :
    ∀ (fuel : ℕ) (m : MisMisQuote), m.Wf →
      ∀ (ref : List Item) (res : List (ℕ × ℚ)), find_in fuel m ref = .ok res →
      ∀ p ∈ res, 0 ≤ (p : ℕ × ℚ).2 ∧ p.2 ≤ 1 := by
  intro fuel
  induction fuel with
  | zero =>
      intro m _ ref res h
      rw [find_in_zero] at h
      exact absurd h (by simp)
  | succ fuel ih =>
      intro m hwf ref res h
      rw [find_in_succ] at h
      unfold find_inF at h
      obtain ⟨t, ht, h2⟩ := bind_eq_ok h
      obtain ⟨pr, hpr, h3⟩ := bind_eq_ok h2
      have hres := Except.ok.inj h3
      intro p hp
      rw [← hres] at hp
      have hp2 : p ∈ sortByScore pr.1 := (List.mem_filter.mp hp).1
      have hp3 : p ∈ pr.1 := mem_sortByScore.mp hp2
      have ht2 := tracker_make_ok_dest ht
      subst ht2
      exact scanLoopF_bounds hwf (fun sub hs e2 r2 hok => ih sub hs e2 r2 hok) ref
        _ rfl (fun st hst => absurd hst (List.not_mem_nil st)) 0 pr.1 pr.2
        (by exact hpr) p hp3

/-! The exact-match diagonal: scanning the pattern itself drives a `1.0`
down the anti-diagonal of the tracker states. -/

theorem getD_append_seed {l : List ℚ} {e : ℕ} (h : l.length = e) :
    (l ++ [(1 : ℚ)]).getD e 0 = 1 := by
  rw [List.getD_eq_getElem?_getD, List.getElem?_append_right (by omega), h]
  simp

theorem getD_append_mid {l l' : List ℚ} {e : ℕ} (h : e < l.length) :
    (l ++ l').getD e 0 = l.getD e 0 := by
  rw [List.getD_eq_getElem?_getD, List.getElem?_append_left h,
    ← List.getD_eq_getElem?_getD]

theorem getD_drop_one {l : List ℚ} {e : ℕ} :
    (l.drop 1).getD e 0 = l.getD (e + 1) 0 := by
  rw [List.getD_eq_getElem?_getD, List.getElem?_drop, ← List.getD_eq_getElem?_getD,
    Nat.add_comm]

theorem shift_last_getD_seed (t : MMQTracker) (hwf : t.Wf) :
    t._shift_last_tracker.getD (t.length - 1) 0 = 1 := by
  unfold MMQTracker._shift_last_tracker
  match hlast : t.tracker.getLast? with
  | some last =>
      have hlen : last.length = t.length := hwf last (List.mem_of_mem_getLast? hlast)
      exact getD_append_seed (by rw [List.length_drop, hlen])
  | none => exact getD_append_seed (by rw [List.length_replicate])

theorem shift_last_getD_hist {t : MMQTracker} {last : List ℚ}
    (hlast : t.tracker.getLast? = some last) {e : ℕ} (he : e + 1 < last.length) :
    t._shift_last_tracker.getD e 0 = last.getD (e + 1) 0 := by
  unfold MMQTracker._shift_last_tracker
  rw [hlast, getD_append_mid (by rw [List.length_drop]; omega), getD_drop_one]

theorem and_tracker_one {t : MMQTracker} {sh lm : List ℚ} {e : ℕ} (he : e < t.length)
    (hlm : lm.getD (t.length - e - 1) 0 = 1) :
    (t._and_tracker sh lm).getD e 0 = sh.getD e 0 := by
  rw [and_tracker_getD t sh lm he, hlm]
  norm_num

theorem shiftand_ad0 (t : MMQTracker) (lm : List ℚ) (h : lm.length = t.length)
    (had : t.allowed_differences = 0) :
    t.shiftand lm = .ok ((t._and_tracker t._shift_last_tracker lm).getD 0 0,
      { t with tracker := t.tracker ++ [t._and_tracker t._shift_last_tracker lm] }) := by
  unfold MMQTracker.shiftand
  rw [if_neg (by simp [h]), had]
  simp

theorem scanLoopF_fields {fn : MisMisQuote → List Item → Except Err (List (ℕ × ℚ))}
    {m : MisMisQuote} :
    ∀ (ref : List Item) (t : MMQTracker) (i : ℕ) (res : List (ℕ × ℚ)) (t2 : MMQTracker),
      scanLoopF fn m t i ref = .ok (res, t2) →
      t2.length = t.length ∧ t2.allowed_differences = t.allowed_differences ∧
      t2.nomatch_multiplier = t.nomatch_multiplier ∧ t2.threshold = t.threshold := by
  intro ref
  induction ref with
  | nil =>
      intro t i res t2 h
      simp only [scanLoopF] at h
      rw [← (Prod.mk.inj (Except.ok.inj h)).2]
      exact ⟨rfl, rfl, rfl, rfl⟩
  | cons r rs ih =>
      intro t i res t2 h
      simp only [scanLoopF] at h
      obtain ⟨v, hv, h2⟩ := bind_eq_ok h
      obtain ⟨st, hst, h3⟩ := bind_eq_ok h2
      obtain ⟨pr, hpr, h4⟩ := bind_eq_ok h3
      have h5 := (Prod.mk.inj (Except.ok.inj h4)).2
      have hf := shiftand_fields (show t.shiftand v = .ok (st.1, st.2) from hst)
      have hrec := ih st.2 (i + 1) pr.1 pr.2 (by exact hpr)
      rw [← h5]
      exact ⟨hrec.1.trans hf.1, hrec.2.1.trans hf.2.1,
        hrec.2.2.1.trans hf.2.2.1, hrec.2.2.2.trans hf.2.2.2⟩

theorem scanLoopF_wf {fn : MisMisQuote → List Item → Except Err (List (ℕ × ℚ))}
    {m : MisMisQuote} :
    ∀ (ref : List Item) (t : MMQTracker), t.Wf →
      ∀ (i : ℕ) (res : List (ℕ × ℚ)) (t2 : MMQTracker),
        scanLoopF fn m t i ref = .ok (res, t2) → t2.Wf := by
  intro ref
  induction ref with
  | nil =>
      intro t hwt i res t2 h
      simp only [scanLoopF] at h
      rw [← (Prod.mk.inj (Except.ok.inj h)).2]
      exact hwt
  | cons r rs ih =>
      intro t hwt i res t2 h
      simp only [scanLoopF] at h
      obtain ⟨v, hv, h2⟩ := bind_eq_ok h
      obtain ⟨st, hst, h3⟩ := bind_eq_ok h2
      obtain ⟨pr, hpr, h4⟩ := bind_eq_ok h3
      have h5 := (Prod.mk.inj (Except.ok.inj h4)).2
      have hd := shiftand_ok_dest t v st.1 st.2 hwt hst
      rw [← h5]
      exact ih st.2 hd.1 (i + 1) pr.1 pr.2 (by exact hpr)

theorem scanLoopF_append (fn : MisMisQuote → List Item → Except Err (List (ℕ × ℚ)))
    (m : MisMisQuote) :
    ∀ (xs : List Item) (t : MMQTracker) (i : ℕ) (r1 : List (ℕ × ℚ)) (t1 : MMQTracker),
      scanLoopF fn m t i xs = .ok (r1, t1) →
      ∀ (ys : List Item) (r2 : List (ℕ × ℚ)) (t2 : MMQTracker),
        scanLoopF fn m t1 (i + xs.length) ys = .ok (r2, t2) →
        scanLoopF fn m t i (xs ++ ys) = .ok (r1 ++ r2, t2) := by
  intro xs
  induction xs with
  | nil =>
      intro t i r1 t1 h ys r2 t2 h2
      simp only [scanLoopF] at h
      have h3 := Prod.mk.inj (Except.ok.inj h)
      rw [List.nil_append, ← h3.1, List.nil_append]
      rw [List.length_nil, Nat.add_zero] at h2
      rw [← h3.2] at h2
      exact h2
  | cons x xs ih =>
      intro t i r1 t1 h ys r2 t2 h2
      simp only [scanLoopF] at h
      obtain ⟨v, hv, h3⟩ := bind_eq_ok h
      obtain ⟨st, hst, h4⟩ := bind_eq_ok h3
      obtain ⟨pr, hpr, h5⟩ := bind_eq_ok h4
      have h6 := Prod.mk.inj (Except.ok.inj h5)
      rw [List.cons_append]
      simp only [scanLoopF]
      rw [hv, okBind, hst, okBind]
      have hrec := ih st.2 (i + 1) pr.1 pr.2 (by exact hpr) ys r2 t2
        (by rw [show i + 1 + xs.length = i + (x :: xs).length by simp; omega, h6.2]
            exact h2)
      rw [hrec, okBind, ← h6.1]
      rfl

theorem get_locmap_mark (fn : MisMisQuote → List Item → Except Err (List (ℕ × ℚ)))
    {m : MisMisQuote} (hwf : m.Wf) {k : ℕ} (hk : k < m.items.length) :
    ∃ v, get_locmapF fn m (m.items.get ⟨k, hk⟩) = .ok v ∧ v.getD k 0 = 1 ∧
      v.length = m.items.length := by
  obtain ⟨v, hfind, hmark, hlen⟩ := buildVectors_find?_mark hk
  refine ⟨v, ?_, hmark, hlen⟩
  unfold get_locmapF
  rw [hwf.2.2.2.2.2.2, hfind]

theorem scan_suffix_ones (fn : MisMisQuote → List Item → Except Err (List (ℕ × ℚ)))
    {m : MisMisQuote} (hwf : m.Wf) :
    ∀ (n : ℕ), 0 < n → n ≤ m.items.length →
      ∀ (t : MMQTracker) (i : ℕ), t.Wf → t.length = m.items.length →
        t.allowed_differences = 0 →
        t._shift_last_tracker.getD (n - 1) 0 = 1 →
        ∃ res t2, scanLoopF fn m t i (m.items.drop (m.items.length - n)) =
            .ok (res, t2) ∧ (i + (n - 1), (1 : ℚ)) ∈ res := by
  intro n
  induction n with
  | zero => omega
  | succ n ih =>
      intro _ hle t i hwt hlen had hseed
      have hk : m.items.length - (n + 1) < m.items.length := by omega
      have hdrop : m.items.drop (m.items.length - (n + 1)) =
          m.items.get ⟨m.items.length - (n + 1), hk⟩ ::
            m.items.drop (m.items.length - n) := by
        rw [← List.getElem_cons_drop m.items (m.items.length - (n + 1)) hk,
          List.get_eq_getElem]
        rw [show m.items.length - (n + 1) + 1 = m.items.length - n by omega]
      obtain ⟨v, hv, hmark, hvlen⟩ := get_locmap_mark fn hwf hk
      have hsand := shiftand_ad0 t v (by rw [hvlen, hlen]) had
      have hnewsn : (t._and_tracker t._shift_last_tracker v).getD n 0 = 1 := by
        rw [and_tracker_one (by omega)
          (by rw [hlen, show m.items.length - n - 1 = m.items.length - (n + 1) by omega]
              exact hmark)]
        exact hseed
      have hd := shiftand_ok_dest t v _ _ hwt hsand
      cases n with
      | zero =>
          refine ⟨[(i, (t._and_tracker t._shift_last_tracker v).getD 0 0)],
            { t with tracker :=
                t.tracker ++ [t._and_tracker t._shift_last_tracker v] }, ?_, ?_⟩
          · rw [hdrop, Nat.sub_zero, List.drop_length]
            simp only [scanLoopF]
            rw [hv, okBind, hsand, okBind]
            rfl
          · rw [hnewsn]
            simp
      | succ n' =>
          obtain ⟨res2, t3, hscan2, hmem2⟩ := ih (by omega) (by omega)
            { t with tracker :=
                t.tracker ++ [t._and_tracker t._shift_last_tracker v] }
            (i + 1) hd.1 (by exact hlen) had
            (by
              rw [shift_last_getD_hist
                (show (t.tracker ++
                    [t._and_tracker t._shift_last_tracker v]).getLast? =
                  some (t._and_tracker t._shift_last_tracker v) from
                    List.getLast?_concat _)
                (by rw [and_tracker_length]; omega)]
              exact hnewsn)
          refine ⟨(i, (t._and_tracker t._shift_last_tracker v).getD 0 0) :: res2,
            t3, ?_, ?_⟩
          · rw [hdrop]
            simp only [scanLoopF]
            rw [hv, okBind, hsand, okBind, hscan2, okBind]
          · refine List.mem_cons_of_mem _ ?_
            rw [show i + (n' + 1 + 1 - 1) = i + 1 + (n' + 1 - 1) by omega]
            exact hmem2

/-! An unknown reference token forces the fuzzy-candidate loop to rebuild
every compound key's nested matcher; a compound key no longer than the
tolerance then fails the nested tracker's length bound. -/

theorem get_locmapF_known {fn : MisMisQuote → List Item → Except Err (List (ℕ × ℚ))}
    {m : MisMisQuote} (hwf : m.Wf) {p : Item} (hp : p ∈ m.items) :
    ∃ v, get_locmapF fn m p = .ok v ∧ v.length = m.items.length := by
  obtain ⟨k, hk, hkp⟩ := List.mem_iff_getElem.mp hp
  obtain ⟨v, hfind, _, hlen⟩ := buildVectors_find?_mark hk
  have hgp : m.items.get ⟨k, hk⟩ = p := hkp
  rw [hgp] at hfind
  refine ⟨v, ?_, hlen⟩
  unfold get_locmapF
  rw [hwf.2.2.2.2.2.2, hfind]

theorem potentialsLoopF_short_err {m : MisMisQuote} (hwf : m.Wf) (elts : List Item) :
    ∀ vs : List (Item × List ℚ),
      (∃ e ∈ vs, 1 < ((e : Item × List ℚ).1).length ∧
        (((e : Item × List ℚ).1).length : ℤ) ≤ m.allowed_differences) →
      potentialsLoopF (find_in 1) m elts vs = .error .toleranceTooLarge := by
  intro vs
  induction vs with
  | nil => rintro ⟨e, he, _⟩; cases he
  | cons e rest ih =>
      rintro ⟨f, hf, hflen, hfshort⟩
      simp only [potentialsLoopF]
      by_cases hc : 1 < e.1.length
      · rw [if_pos hc]
        have hne : ¬(toSingles e.1 = []) := by
          intro h0
          have hl := toSingles_length e.1
          rw [h0] at hl
          simp at hl
          omega
        have hmk := @make_ok_of_valid (toSingles e.1) m.allowed_differences
          m.nomatch_multiplier m.threshold hne (by have := hwf.2.1; omega)
          (by push_neg; exact ⟨hwf.2.2.1, hwf.2.2.2.1⟩)
          (by push_neg; exact ⟨hwf.2.2.2.2.1, hwf.2.2.2.2.2.1⟩)
        rw [hmk, okBind]
        by_cases hshort2 : ((e.1.length : ℕ) : ℤ) ≤ m.allowed_differences
        · have hsub : find_in 1 ⟨toSingles e.1, m.allowed_differences,
              m.nomatch_multiplier, m.threshold,
              buildVectors (toSingles e.1).length (toSingles e.1)⟩ elts =
              .error .toleranceTooLarge := by
            rw [show (1 : ℕ) = 0 + 1 from rfl, find_in_succ]
            unfold find_inF
            have hT : MMQTracker.make (toSingles e.1).length
                m.allowed_differences m.nomatch_multiplier m.threshold =
                .error .toleranceTooLarge := by
              unfold MMQTracker.make
              rw [if_neg (by rw [toSingles_length]; omega),
                if_neg (by have := hwf.2.1; omega),
                if_pos (by rw [toSingles_length]; exact hshort2)]
            rw [hT, errBind]
          rw [hsub, errBind]
        · obtain ⟨res2, hres2⟩ := find_in_sing_ok (make_ok_dest hmk).2.2.2.2
            (fun k hk => le_of_eq (toSingles_sing k hk))
            (by show m.allowed_differences < (((toSingles e.1).length : ℕ) : ℤ)
                rw [toSingles_length]
                omega) 0 elts
          rw [hres2, okBind, pureBind]
          have hfr : f ∈ rest := by
            rcases List.mem_cons.mp hf with rfl | hfr
            · exact absurd hfshort hshort2
            · exact hfr
          rw [ih ⟨f, hfr, hflen, hfshort⟩, errBind]
      · rw [if_neg hc, pureBind]
        have hfr : f ∈ rest := by
          rcases List.mem_cons.mp hf with rfl | hfr
          · exact absurd hflen hc
          · exact hfr
        rw [ih ⟨f, hfr, hflen, hfshort⟩, errBind]

theorem get_locmapF_unknown_err {m : MisMisQuote} (hwf : m.Wf) {u : Item}
    (hu : u ∉ m.items)
    (hshort : ∃ k ∈ m.items, 1 < (k : Item).length ∧
      ((k : Item).length : ℤ) ≤ m.allowed_differences) :
    get_locmapF (find_in 1) m u = .error .toleranceTooLarge := by
  unfold get_locmapF
  have hnone : (m.vectors.find? fun e => e.1 = u) = none := by
    rw [hwf.2.2.2.2.2.2]
    exact buildVectors_find?_none.mpr hu
  rw [hnone]
  obtain ⟨k, hk, hk1, hk2⟩ := hshort
  have hkm : k ∈ (buildVectors m.items.length m.items).map Prod.fst :=
    buildVectors_keys_mem.mpr hk
  obtain ⟨e, he, hek⟩ := List.mem_map.mp hkm
  have herr := potentialsLoopF_short_err hwf (toSingles u) m.vectors
    ⟨e, by rw [hwf.2.2.2.2.2.2]; exact he, by rw [hek]; exact hk1,
      by rw [hek]; exact hk2⟩
  rw [herr, errBind]

theorem scanLoopF_short_err {m : MisMisQuote} (hwf : m.Wf)
    (hshort : ∃ k ∈ m.items, 1 < (k : Item).length ∧
      ((k : Item).length : ℤ) ≤ m.allowed_differences)
    {u : Item} (hu : u ∉ m.items) (post : List Item) :
    ∀ pre : List Item, (∀ p ∈ pre, p ∈ m.items) →
      ∀ t : MMQTracker, t.length = m.items.length → ∀ i : ℕ,
        scanLoopF (find_in 1) m t i (pre ++ u :: post) =
          .error .toleranceTooLarge := by
  intro pre
  induction pre with
  | nil =>
      intro _ t hlen i
      rw [List.nil_append]
      simp only [scanLoopF]
      rw [get_locmapF_unknown_err hwf hu hshort, errBind]
  | cons p ps ih =>
      intro hpre t hlen i
      rw [List.cons_append]
      simp only [scanLoopF]
      obtain ⟨v, hv, hvlen⟩ := get_locmapF_known hwf
        (hpre p (List.mem_cons_self p ps))
      rw [hv, okBind]
      obtain ⟨s, hs⟩ := shiftand_eq_ok t v (by rw [hvlen, hlen])
      rw [hs, okBind]
      rw [ih (fun q hq => hpre q (List.mem_cons_of_mem p hq)) _
        (by exact hlen) (i + 1), errBind]

theorem and_tracker_update (t : MMQTracker) (x : List (List ℚ)) (a b : List ℚ) :
    ({ t with tracker := x } : MMQTracker)._and_tracker a b =
      t._and_tracker a b := rfl

/-! Monotonicity of the scan in the `nomatch_multiplier`, for patterns of
atomic tokens.  The two runs share every alignment vector; each state
entry, each filler and hence each score is pointwise monotone. -/

theorem getD_replicate {a d : ℚ} {n c : ℕ} (h : n < c) :
    (List.replicate c a).getD n d = a := by
  rw [List.getD_eq_getElem?_getD, List.getElem?_replicate, if_pos h]
  rfl

theorem getD_append_right {l l' : List ℚ} {e : ℕ} (h : l.length ≤ e) :
    (l ++ l').getD e 0 = l'.getD (e - l.length) 0 := by
  rw [List.getD_eq_getElem?_getD, List.getElem?_append_right h,
    ← List.getD_eq_getElem?_getD]

theorem getD_drop {l : List ℚ} {n e : ℕ} :
    (l.drop n).getD e 0 = l.getD (n + e) 0 := by
  rw [List.getD_eq_getElem?_getD, List.getElem?_drop,
    ← List.getD_eq_getElem?_getD]

theorem or_mono {a1 a2 b1 b2 : ℚ} (ha : a1 ≤ a2) (hb : b1 ≤ b2) (j : ℕ) :
    _or a1 b1 (j : ℤ) ≤ _or a2 b2 (j : ℤ) := by
  unfold _or
  have hj : (0 : ℚ) < 2 + ((j : ℤ) : ℚ) := by
    have h0 : (0 : ℚ) ≤ ((j : ℤ) : ℚ) := by exact_mod_cast Int.ofNat_nonneg j
    linarith
  have hdiv : b1 / (2 + ((j : ℤ) : ℚ)) ≤ b2 / (2 + ((j : ℤ) : ℚ)) := by
    rw [div_eq_mul_inv, div_eq_mul_inv]
    exact mul_le_mul_of_nonneg_right hb (inv_nonneg.mpr (le_of_lt hj))
  exact min_le_min le_rfl (add_le_add ha hdiv)

theorem foldl_mono_pair {f1 f2 : ℚ → ℕ → ℚ} :
    ∀ (l : List ℕ) {a1 a2 : ℚ}, a1 ≤ a2 →
      (∀ j ∈ l, ∀ b1 b2 : ℚ, b1 ≤ b2 → f1 b1 j ≤ f2 b2 j) →
      l.foldl f1 a1 ≤ l.foldl f2 a2 := by
  intro l
  induction l with
  | nil => intro a1 a2 h _; exact h
  | cons x xs ih =>
      intro a1 a2 h hf
      rw [List.foldl_cons, List.foldl_cons]
      exact ih (hf x (List.mem_cons_self x xs) a1 a2 h)
        (fun j hj => hf j (List.mem_cons_of_mem x hj))

theorem forall₂_getLast? {α β : Type} {R : α → β → Prop} :
    ∀ {l1 : List α} {l2 : List β}, List.Forall₂ R l1 l2 →
      (l1 = [] ∧ l2 = []) ∨
      ∃ a b, l1.getLast? = some a ∧ l2.getLast? = some b ∧ R a b := by
  intro l1 l2 h
  induction h with
  | nil => exact Or.inl ⟨rfl, rfl⟩
  | @cons a b l1' l2' hab hrest ih =>
      right
      rcases ih with ⟨rfl, rfl⟩ | ⟨x, y, hx, hy, hxy⟩
      · exact ⟨a, b, rfl, rfl, hab⟩
      · refine ⟨x, y, ?_, ?_, hxy⟩
        · match l1', hx with
          | c :: cs, hx => rw [List.getLast?_cons_cons]; exact hx
        · match l2', hy with
          | c :: cs, hy => rw [List.getLast?_cons_cons]; exact hy

theorem forall₂_reverse {α β : Type} {R : α → β → Prop} :
    ∀ {l1 : List α} {l2 : List β}, List.Forall₂ R l1 l2 →
      List.Forall₂ R l1.reverse l2.reverse := by
  intro l1 l2 h
  induction h with
  | nil => exact List.Forall₂.nil
  | @cons a b l1' l2' hab hrest ih =>
      rw [List.reverse_cons, List.reverse_cons]
      exact List.rel_append ih (List.Forall₂.cons hab List.Forall₂.nil)

theorem forall₂_getD {α β : Type} {R : α → β → Prop} (d1 : α) (d2 : β) :
    ∀ {l1 : List α} {l2 : List β}, List.Forall₂ R l1 l2 →
      ∀ n, n < l1.length → R (l1.getD n d1) (l2.getD n d2) := by
  intro l1 l2 h
  induction h with
  | nil => intro n hn; simp at hn
  | @cons a b l1' l2' hab hrest ih =>
      intro n hn
      match n with
      | 0 => simpa using hab
      | n + 1 =>
          rw [List.getD_cons_succ, List.getD_cons_succ]
          exact ih n (by simpa using hn)

theorem and_tracker_mono {t1 t2 : MMQTracker} (hL : t1.length = t2.length)
    (hmu0 : 0 ≤ t1.nomatch_multiplier)
    (hmu12 : t1.nomatch_multiplier ≤ t2.nomatch_multiplier)
    {a1 a2 lm : List ℚ} (ha2 : ∀ e, 0 ≤ a2.getD e 0)
    (hlm : ∀ e, 0 ≤ lm.getD e 0)
    (h12 : ∀ e, a1.getD e 0 ≤ a2.getD e 0) :
    ∀ e, (t1._and_tracker a1 lm).getD e 0 ≤ (t2._and_tracker a2 lm).getD e 0 := by
  intro e
  by_cases he : e < t1.length
  · rw [and_tracker_getD t1 a1 lm he, and_tracker_getD t2 a2 lm (hL ▸ he), ← hL]
    by_cases h0 : lm.getD (t1.length - e - 1) 0 = 0
    · rw [if_pos h0, if_pos h0]
      calc a1.getD e 0 * t1.nomatch_multiplier
          ≤ a2.getD e 0 * t1.nomatch_multiplier :=
            mul_le_mul_of_nonneg_right (h12 e) hmu0
        _ ≤ a2.getD e 0 * t2.nomatch_multiplier :=
            mul_le_mul_of_nonneg_left hmu12 (ha2 e)
    · rw [if_neg h0, if_neg h0]
      by_cases h1 : lm.getD (t1.length - e - 1) 0 < 1
      · rw [if_pos h1, if_pos h1]
        exact mul_le_mul_of_nonneg_right (h12 e) (hlm _)
      · rw [if_neg h1, if_neg h1]
        exact h12 e
  · rw [List.getD_eq_default _ _ (by rw [and_tracker_length]; omega),
      List.getD_eq_default _ _ (by rw [and_tracker_length]; omega)]

theorem shift_last_mono {t1 t2 : MMQTracker} (hL : t1.length = t2.length)
    (hmu12 : t1.nomatch_multiplier ≤ t2.nomatch_multiplier)
    (hAD : t1.allowed_differences = t2.allowed_differences)
    (hfil : 0 < t1.nomatch_multiplier ∨ t1.allowed_differences = 0)
    (hrel : List.Forall₂ (fun s1 s2 => (s1 : List ℚ).length = t1.length ∧
        (s2 : List ℚ).length = t1.length ∧
        ∀ e, (s1 : List ℚ).getD e 0 ≤ (s2 : List ℚ).getD e 0)
      t1.tracker t2.tracker) :
    ∀ e, t1._shift_last_tracker.getD e 0 ≤ t2._shift_last_tracker.getD e 0 := by
  intro e
  unfold MMQTracker._shift_last_tracker
  rcases forall₂_getLast? hrel with ⟨h1, h2⟩ | ⟨a, b, ha, hb, hlen1, hlen2, hab⟩
  · rw [h1, h2]
    show (List.replicate (t1.length - 1)
        (if 0 < t1.nomatch_multiplier then t1.nomatch_multiplier
         else if 0 < t1.allowed_differences then
           1 / ((t1.allowed_differences : ℚ) + 1) else 0) ++ [1]).getD e 0 ≤
      (List.replicate (t2.length - 1)
        (if 0 < t2.nomatch_multiplier then t2.nomatch_multiplier
         else if 0 < t2.allowed_differences then
           1 / ((t2.allowed_differences : ℚ) + 1) else 0) ++ [1]).getD e 0
    have hgen : ∀ f1 f2 : ℚ, f1 ≤ f2 →
        (List.replicate (t1.length - 1) f1 ++ [(1 : ℚ)]).getD e 0 ≤
        (List.replicate (t2.length - 1) f2 ++ [(1 : ℚ)]).getD e 0 := by
      intro f1 f2 h12
      rw [← hL]
      by_cases he : e < t1.length - 1
      · rw [getD_append_mid (by rw [List.length_replicate]; exact he),
          getD_append_mid (by rw [List.length_replicate]; exact he),
          getD_replicate he, getD_replicate he]
        exact h12
      · by_cases he2 : e = t1.length - 1
        · subst he2
          rw [getD_append_seed (List.length_replicate _ _),
            getD_append_seed (List.length_replicate _ _)]
        · rw [List.getD_eq_default _ _ (by
                rw [List.length_append, List.length_replicate]
                simp only [List.length_cons, List.length_nil]
                omega),
            List.getD_eq_default _ _ (by
                rw [List.length_append, List.length_replicate]
                simp only [List.length_cons, List.length_nil]
                omega)]
    apply hgen
    by_cases hm1 : 0 < t1.nomatch_multiplier
    · rw [if_pos hm1, if_pos (lt_of_lt_of_le hm1 hmu12)]
      exact hmu12
    · have had0 : t1.allowed_differences = 0 := hfil.resolve_left hm1
      rw [if_neg hm1, if_neg (by rw [had0]; exact lt_irrefl 0)]
      by_cases hm2 : 0 < t2.nomatch_multiplier
      · rw [if_pos hm2]
        exact le_of_lt hm2
      · rw [if_neg hm2, if_neg (by rw [← hAD, had0]; exact lt_irrefl 0)]
  · rw [ha, hb]
    show (a.drop 1 ++ [(1 : ℚ)]).getD e 0 ≤ (b.drop 1 ++ [(1 : ℚ)]).getD e 0
    by_cases he : e < t1.length - 1
    · rw [getD_append_mid (by rw [List.length_drop, hlen1]; exact he),
        getD_append_mid (by rw [List.length_drop, hlen2]; exact he),
        getD_drop_one, getD_drop_one]
      exact hab (e + 1)
    · by_cases he2 : e = t1.length - 1
      · subst he2
        rw [getD_append_seed (by rw [List.length_drop, hlen1]),
          getD_append_seed (by rw [List.length_drop, hlen2])]
      · rw [List.getD_eq_default _ _ (by
              rw [List.length_append, List.length_drop, hlen1]
              simp only [List.length_cons, List.length_nil]
              omega),
          List.getD_eq_default _ _ (by
              rw [List.length_append, List.length_drop, hlen2]
              simp only [List.length_cons, List.length_nil]
              omega)]

theorem shift_old_mono {t1 t2 : MMQTracker}
    (hrel : List.Forall₂ (fun s1 s2 => (s1 : List ℚ).length = t1.length ∧
        (s2 : List ℚ).length = t1.length ∧
        ∀ e, (s1 : List ℚ).getD e 0 ≤ (s2 : List ℚ).getD e 0)
      t1.tracker t2.tracker)
    {j : ℕ} (hj : j + 1 < t1.tracker.length) :
    ∀ e, (t1._shift_old_tracker j).getD e 0 ≤
      (t2._shift_old_tracker j).getD e 0 := by
  intro e
  unfold MMQTracker._shift_old_tracker
  obtain ⟨hs1, hs2, hs12⟩ :=
    forall₂_getD ([] : List ℚ) ([] : List ℚ)
      (forall₂_reverse hrel) (j + 1) (by rw [List.length_reverse]; exact hj)
  by_cases he : e < t1.length - (j + 2)
  · rw [getD_append_mid (by rw [List.length_drop, hs1]; exact he),
      getD_append_mid (by rw [List.length_drop, hs2]; exact he),
      getD_drop, getD_drop]
    exact hs12 (j + 2 + e)
  · by_cases he2 : e < t1.length - (j + 2) + (j + 2)
    · rw [getD_append_right (by rw [List.length_drop, hs1]; omega),
        getD_append_right (by rw [List.length_drop, hs2]; omega),
        List.length_drop, List.length_drop, hs1, hs2,
        getD_replicate (by omega)]
    · rw [List.getD_eq_default _ _ (by
            rw [List.length_append, List.length_drop, List.length_replicate, hs1]
            omega),
        List.getD_eq_default _ _ (by
            rw [List.length_append, List.length_drop, List.length_replicate, hs2]
            omega)]

theorem shiftand_score (t : MMQTracker) (lm : List ℚ) (h : lm.length = t.length) :
    t.shiftand lm = .ok (
      (if t.allowed_differences ≠ 0 then
        (List.range t.allowed_differences.toNat).foldl
          (MMQTracker.orStep
            { t with tracker := t.tracker ++ [t._and_tracker t._shift_last_tracker lm] }
            (t._and_tracker t._shift_last_tracker lm) lm)
          ((t._and_tracker t._shift_last_tracker lm).getD 0 0)
      else (t._and_tracker t._shift_last_tracker lm).getD 0 0),
      { t with tracker := t.tracker ++ [t._and_tracker t._shift_last_tracker lm] }) := by
  unfold MMQTracker.shiftand
  rw [if_neg (by simp [h])]

theorem orStep_mono {t1 t2 : MMQTracker} {nt1 nt2 lm : List ℚ}
    (hL : t1.length = t2.length)
    (hmu0 : 0 ≤ t1.nomatch_multiplier)
    (hmu12 : t1.nomatch_multiplier ≤ t2.nomatch_multiplier)
    (hlenT : t1.tracker.length = t2.tracker.length)
    (hrel : List.Forall₂ (fun s1 s2 => (s1 : List ℚ).length = t1.length ∧
        (s2 : List ℚ).length = t1.length ∧
        ∀ e, (s1 : List ℚ).getD e 0 ≤ (s2 : List ℚ).getD e 0)
      t1.tracker t2.tracker)
    (hist2 : ∀ st ∈ t2.tracker, ∀ x ∈ st, 0 ≤ x ∧ x ≤ 1)
    (hlm : ∀ e, 0 ≤ lm.getD e 0)
    (hnt12 : ∀ e, nt1.getD e 0 ≤ nt2.getD e 0)
    {sc1 sc2 : ℚ} (hsc : sc1 ≤ sc2) (j : ℕ) :
    MMQTracker.orStep t1 nt1 lm sc1 j ≤ MMQTracker.orStep t2 nt2 lm sc2 j := by
  unfold MMQTracker.orStep
  have h1 : _or sc1 (nt1.getD (j + 1) 0) (j : ℤ) ≤
      _or sc2 (nt2.getD (j + 1) 0) (j : ℤ) :=
    or_mono hsc (hnt12 (j + 1)) j
  rw [← hlenT]
  by_cases hg : j < t1.tracker.length - 1
  · rw [if_pos hg, if_pos hg]
    refine or_mono h1 ?_ j
    have hso2 : ∀ e, 0 ≤ (t2._shift_old_tracker j).getD e 0 := fun e =>
      (getD_prop (P := fun x => 0 ≤ x ∧ x ≤ 1) (shift_old_bounds hist2 j)
        (by norm_num) e).1
    exact and_tracker_mono hL hmu0 hmu12 hso2 hlm
      (shift_old_mono hrel (by omega)) 0
  · rw [if_neg hg, if_neg hg]
    exact h1

theorem get_locmapF_atom
    (fn1 fn2 : MisMisQuote → List Item → Except Err (List (ℕ × ℚ)))
    {m1 m2 : MisMisQuote}
    (hitems : m1.items = m2.items) (hvec : m1.vectors = m2.vectors)
    (hw1 : m1.Wf) (hatom : ∀ k ∈ m1.items, (k : Item).length ≤ 1) (r : Item) :
    ∃ v, get_locmapF fn1 m1 r = .ok v ∧ get_locmapF fn2 m2 r = .ok v ∧
      v.length = m1.items.length ∧ ∀ x ∈ v, 0 ≤ x ∧ x ≤ 1 := by
  match hfind : m1.vectors.find? fun e => e.1 = r with
  | some e =>
      have hm1 : get_locmapF fn1 m1 r = .ok e.2 := by
        unfold get_locmapF
        rw [hfind]
      have hm2 : get_locmapF fn2 m2 r = .ok e.2 := by
        unfold get_locmapF
        rw [← hvec, hfind]
      have hmem := List.mem_of_find?_eq_some hfind
      rw [hw1.2.2.2.2.2.2] at hmem
      refine ⟨e.2, hm1, hm2, buildVectors_len e hmem, ?_⟩
      intro x hx
      rcases buildVectors_vals e hmem x hx with rfl | rfl <;> norm_num
  | none =>
      have hkeys : ∀ e ∈ m1.vectors, ((e : Item × List ℚ).1).length ≤ 1 :=
        fun e he => hatom e.1 (wf_keys_in_items hw1 e he)
      have hp1 : potentialsLoopF fn1 m1 (toSingles r) m1.vectors = .ok [] :=
        potentialsLoopF_sing_ok m1.vectors hkeys
      have hp2 : potentialsLoopF fn2 m2 (toSingles r) m1.vectors = .ok [] :=
        potentialsLoopF_sing_ok m1.vectors hkeys
      have hm1 : get_locmapF fn1 m1 r = .ok (List.replicate m1.items.length 0) := by
        unfold get_locmapF
        rw [hfind, hp1, okBind]
        rfl
      have hm2 : get_locmapF fn2 m2 r = .ok (List.replicate m1.items.length 0) := by
        unfold get_locmapF
        rw [← hvec, hfind, hp2, okBind, ← hitems]
        rfl
      refine ⟨List.replicate m1.items.length 0, hm1, hm2,
        List.length_replicate _ _, ?_⟩
      intro x hx
      rw [List.eq_of_mem_replicate hx]
      norm_num

theorem scanLoopF_mono
    (fn1 fn2 : MisMisQuote → List Item → Except Err (List (ℕ × ℚ)))
    {m1 m2 : MisMisQuote}
    (hitems : m1.items = m2.items) (hvec : m1.vectors = m2.vectors)
    (hw1 : m1.Wf) (hw2 : m2.Wf)
    (hatom : ∀ k ∈ m1.items, (k : Item).length ≤ 1) :
    ∀ (ref : List Item) (T1 T2 : MMQTracker) (i : ℕ),
      T1.length = m1.items.length → T2.length = m1.items.length →
      T1.allowed_differences = T2.allowed_differences →
      T1.nomatch_multiplier = m1.nomatch_multiplier →
      T2.nomatch_multiplier = m2.nomatch_multiplier →
      T1.nomatch_multiplier ≤ T2.nomatch_multiplier →
      (0 < T1.nomatch_multiplier ∨ T1.allowed_differences = 0) →
      (∀ st ∈ T1.tracker, ∀ x ∈ st, 0 ≤ x ∧ x ≤ 1) →
      (∀ st ∈ T2.tracker, ∀ x ∈ st, 0 ≤ x ∧ x ≤ 1) →
      List.Forall₂ (fun s1 s2 => (s1 : List ℚ).length = T1.length ∧
        (s2 : List ℚ).length = T1.length ∧
        ∀ e, (s1 : List ℚ).getD e 0 ≤ (s2 : List ℚ).getD e 0)
        T1.tracker T2.tracker →
      ∃ r1 t1f r2 t2f,
        scanLoopF fn1 m1 T1 i ref = .ok (r1, t1f) ∧
        scanLoopF fn2 m2 T2 i ref = .ok (r2, t2f) ∧
        List.Forall₂ (fun p q => (p : ℕ × ℚ).1 = (q : ℕ × ℚ).1 ∧
          (p : ℕ × ℚ).2 ≤ (q : ℕ × ℚ).2) r1 r2 := by
  intro ref
  induction ref with
  | nil =>
      intro T1 T2 i _ _ _ _ _ _ _ _ _ _
      exact ⟨[], T1, [], T2, by simp [scanLoopF], by simp [scanLoopF],
        List.Forall₂.nil⟩
  | cons r rs ih =>
      intro T1 T2 i hL1 hL2 hADt hmuT1 hmuT2 hmuT12 hfil hist1 hist2 hrel
      have hL12 : T1.length = T2.length := hL1.trans hL2.symm
      have hLpos : 0 < T1.length := by
        rw [hL1]
        exact List.length_pos.mpr hw1.1
      have hmu0T1 : 0 ≤ T1.nomatch_multiplier := by
        rw [hmuT1]; exact hw1.2.2.1
      have hmu1T1 : T1.nomatch_multiplier < 1 := by
        rw [hmuT1]; exact hw1.2.2.2.1
      have hmu0T2 : 0 ≤ T2.nomatch_multiplier := by
        rw [hmuT2]; exact hw2.2.2.1
      have hmu1T2 : T2.nomatch_multiplier < 1 := by
        rw [hmuT2]; exact hw2.2.2.2.1
      obtain ⟨v, hv1, hv2, hvlen, hvb⟩ := get_locmapF_atom fn1 fn2 hitems hvec
        hw1 hatom r
      have hvlen1 : v.length = T1.length := by rw [hvlen, hL1]
      have hvlen2 : v.length = T2.length := by rw [hvlen, hL2]
      have hlmnn : ∀ e, 0 ≤ v.getD e 0 := fun e =>
        (getD_prop (P := fun x => 0 ≤ x ∧ x ≤ 1) hvb (by norm_num) e).1
      have hs1 := shiftand_score T1 v hvlen1
      have hs2 := shiftand_score T2 v hvlen2
      have hsl12 : ∀ e, T1._shift_last_tracker.getD e 0 ≤
          T2._shift_last_tracker.getD e 0 :=
        shift_last_mono hL12 hmuT12 hADt hfil hrel
      have hsl2b : ∀ x ∈ T2._shift_last_tracker, 0 ≤ x ∧ x ≤ 1 :=
        shift_last_bounds hmu0T2 hmu1T2 hist2
      have hsl2nn : ∀ e, 0 ≤ T2._shift_last_tracker.getD e 0 := fun e =>
        (getD_prop (P := fun x => 0 ≤ x ∧ x ≤ 1) hsl2b (by norm_num) e).1
      have hns12 : ∀ e, (T1._and_tracker T1._shift_last_tracker v).getD e 0 ≤
          (T2._and_tracker T2._shift_last_tracker v).getD e 0 :=
        and_tracker_mono hL12 hmu0T1 hmuT12 hsl2nn hlmnn hsl12
      have hns1b : ∀ x ∈ T1._and_tracker T1._shift_last_tracker v, 0 ≤ x ∧ x ≤ 1 :=
        and_tracker_bounds hmu0T1 hmu1T1
          (shift_last_bounds hmu0T1 hmu1T1 hist1) hvb
      have hns2b : ∀ x ∈ T2._and_tracker T2._shift_last_tracker v, 0 ≤ x ∧ x ≤ 1 :=
        and_tracker_bounds hmu0T2 hmu1T2 hsl2b hvb
      have hist1' : ∀ st ∈ T1.tracker ++ [T1._and_tracker T1._shift_last_tracker v],
          ∀ x ∈ st, 0 ≤ x ∧ x ≤ 1 := by
        intro st hst
        rcases List.mem_append.mp hst with hst | hst
        · exact hist1 st hst
        · rw [List.mem_singleton.mp hst]; exact hns1b
      have hist2' : ∀ st ∈ T2.tracker ++ [T2._and_tracker T2._shift_last_tracker v],
          ∀ x ∈ st, 0 ≤ x ∧ x ≤ 1 := by
        intro st hst
        rcases List.mem_append.mp hst with hst | hst
        · exact hist2 st hst
        · rw [List.mem_singleton.mp hst]; exact hns2b
      have hrel' : List.Forall₂ (fun s1 s2 => (s1 : List ℚ).length = T1.length ∧
          (s2 : List ℚ).length = T1.length ∧
          ∀ e, (s1 : List ℚ).getD e 0 ≤ (s2 : List ℚ).getD e 0)
          (T1.tracker ++ [T1._and_tracker T1._shift_last_tracker v])
          (T2.tracker ++ [T2._and_tracker T2._shift_last_tracker v]) :=
        List.rel_append hrel (List.Forall₂.cons
          ⟨and_tracker_length T1 _ _, by rw [and_tracker_length, ← hL12], hns12⟩
          List.Forall₂.nil)
      have hlenT' : (T1.tracker ++ [T1._and_tracker T1._shift_last_tracker v]).length =
          (T2.tracker ++ [T2._and_tracker T2._shift_last_tracker v]).length := by
        rw [List.length_append, List.length_append, List.Forall₂.length_eq hrel]
        simp only [List.length_cons, List.length_nil]
      have hscore :
          (if T1.allowed_differences ≠ 0 then
            (List.range T1.allowed_differences.toNat).foldl
              (MMQTracker.orStep
                { T1 with tracker := T1.tracker ++
                    [T1._and_tracker T1._shift_last_tracker v] }
                (T1._and_tracker T1._shift_last_tracker v) v)
              ((T1._and_tracker T1._shift_last_tracker v).getD 0 0)
          else (T1._and_tracker T1._shift_last_tracker v).getD 0 0) ≤
          (if T2.allowed_differences ≠ 0 then
            (List.range T2.allowed_differences.toNat).foldl
              (MMQTracker.orStep
                { T2 with tracker := T2.tracker ++
                    [T2._and_tracker T2._shift_last_tracker v] }
                (T2._and_tracker T2._shift_last_tracker v) v)
              ((T2._and_tracker T2._shift_last_tracker v).getD 0 0)
          else (T2._and_tracker T2._shift_last_tracker v).getD 0 0) := by
        rw [← hADt]
        by_cases had : T1.allowed_differences ≠ 0
        · rw [if_pos had, if_pos had]
          refine foldl_mono_pair _ (hns12 0) ?_
          intro j _ b1 b2 hb
          exact orStep_mono (show ({ T1 with tracker := T1.tracker ++
                [T1._and_tracker T1._shift_last_tracker v] } : MMQTracker).length =
              ({ T2 with tracker := T2.tracker ++
                [T2._and_tracker T2._shift_last_tracker v] } : MMQTracker).length
              from hL12)
            hmu0T1 hmuT12 hlenT' hrel' hist2' hlmnn hns12 hb j
        · rw [if_neg had, if_neg had]
          exact hns12 0
      obtain ⟨r1, t1f, r2, t2f, hrec1, hrec2, hrecrel⟩ := ih
        { T1 with tracker := T1.tracker ++
            [T1._and_tracker T1._shift_last_tracker v] }
        { T2 with tracker := T2.tracker ++
            [T2._and_tracker T2._shift_last_tracker v] }
        (i + 1) (by exact hL1) (by exact hL2) (by exact hADt) (by exact hmuT1)
        (by exact hmuT2) (by exact hmuT12) (by exact hfil) hist1' hist2'
        (by exact hrel')
      have hscan1 : scanLoopF fn1 m1 T1 i (r :: rs) =
          .ok ((i, (if T1.allowed_differences ≠ 0 then
              (List.range T1.allowed_differences.toNat).foldl
                (MMQTracker.orStep
                  { T1 with tracker := T1.tracker ++
                      [T1._and_tracker T1._shift_last_tracker v] }
                  (T1._and_tracker T1._shift_last_tracker v) v)
                ((T1._and_tracker T1._shift_last_tracker v).getD 0 0)
            else (T1._and_tracker T1._shift_last_tracker v).getD 0 0)) :: r1,
            t1f) := by
        simp only [scanLoopF]
        rw [hv1, okBind, hs1, okBind, hrec1, okBind]
      have hscan2 : scanLoopF fn2 m2 T2 i (r :: rs) =
          .ok ((i, (if T2.allowed_differences ≠ 0 then
              (List.range T2.allowed_differences.toNat).foldl
                (MMQTracker.orStep
                  { T2 with tracker := T2.tracker ++
                      [T2._and_tracker T2._shift_last_tracker v] }
                  (T2._and_tracker T2._shift_last_tracker v) v)
                ((T2._and_tracker T2._shift_last_tracker v).getD 0 0)
            else (T2._and_tracker T2._shift_last_tracker v).getD 0 0)) :: r2,
            t2f) := by
        simp only [scanLoopF]
        rw [hv2, okBind, hs2, okBind, hrec2, okBind]
      exact ⟨_, t1f, _, t2f, hscan1, hscan2,
        List.Forall₂.cons ⟨rfl, hscore⟩ hrecrel⟩

/-! The claims. -/

/-- C1: exact match.  With the default configuration (`allowed_differences
= 0`, `nomatch_multiplier = 0`, `threshold = 1`), searching any non-empty
pattern in a reference that contains it verbatim as a contiguous segment
yields a result pair whose position is the zero-based index of the last
token of that occurrence and whose confidence is exactly `1`; and on the
instance pattern `[a, b, c]` against reference `[a, b, c]` the output is
exactly the one result `(2, 1)`. -/
theorem C1_exact_match (items pre post : List Item) (hne : items ≠ []) :
    (∃ res, findIn items 0 0 1 (pre ++ items ++ post) = .ok res ∧
       (pre.length + items.length - 1, (1 : ℚ)) ∈ res) ∧
    findIn [[0], [1], [2]] 0 0 1 [[0], [1], [2]] = .ok [(2, 1)] := by
  constructor
  · have hmk := @make_ok_of_valid items 0 0 1 hne (by norm_num) (by norm_num)
      (by norm_num)
    set m0 : MisMisQuote := ⟨items, 0, 0, 1, buildVectors items.length items⟩
      with hm0
    have hwf : m0.Wf := (make_ok_dest hmk).2.2.2.2
    have hLpos : 0 < m0.items.length := List.length_pos.mpr hne
    have hadL : m0.allowed_differences < (m0.items.length : ℤ) := by
      show (0 : ℤ) < ((m0.items.length : ℕ) : ℤ)
      omega
    have hcomp : ∀ k ∈ m0.items, 1 < (k : Item).length →
        m0.allowed_differences < ((k : Item).length : ℤ) := by
      intro k _ hk
      show (0 : ℤ) < ((k.length : ℕ) : ℤ)
      omega
    have hloc := fun it => @get_locmapF_two_ok 0 m0 hwf hcomp it
    set t0 : MMQTracker := ⟨m0.items.length, m0.allowed_differences,
      m0.nomatch_multiplier, m0.threshold, []⟩ with ht0
    have hwt0 : t0.Wf := fun st h => absurd h (List.not_mem_nil st)
    obtain ⟨res1, t1, hscan1, hwt1, hlen1⟩ := scanLoopF_ok hloc pre t0 hwt0 rfl 0
    have hf1 := scanLoopF_fields pre t0 0 res1 t1 hscan1
    obtain ⟨res2, t2, hscan2, hmem2⟩ := scan_suffix_ones (find_in (0 + 1)) hwf
      m0.items.length hLpos le_rfl t1 pre.length hwt1 hlen1
      (hf1.2.1.trans (show t0.allowed_differences = 0 from rfl))
      (by rw [← hlen1]; exact shift_last_getD_seed t1 hwt1)
    rw [Nat.sub_self, List.drop_zero] at hscan2
    have hwt2 : t2.Wf := scanLoopF_wf m0.items t1 hwt1 pre.length res2 t2 hscan2
    have hlen2 : t2.length = m0.items.length :=
      (scanLoopF_fields m0.items t1 pre.length res2 t2 hscan2).1.trans hlen1
    obtain ⟨res3, t3, hscan3, _, _⟩ := scanLoopF_ok hloc post t2 hwt2 hlen2
      (pre.length + m0.items.length)
    have happ2 := scanLoopF_append (find_in (0 + 1)) m0 m0.items t1 pre.length
      res2 t2 hscan2 post res3 t3 hscan3
    have happ1 := scanLoopF_append (find_in (0 + 1)) m0 pre t0 0 res1 t1 hscan1
      (m0.items ++ post) (res2 ++ res3) t3
      (by rw [Nat.zero_add pre.length]; exact happ2)
    refine ⟨(sortByScore (res1 ++ (res2 ++ res3))).filter
      (fun r => decide (m0.threshold ≤ r.2)), ?_, ?_⟩
    · show (do
        let m ← MisMisQuote.make items 0 0 1
        find_in 2 m (pre ++ items ++ post)) = _
      rw [hmk, okBind, show (2 : ℕ) = 1 + 1 from rfl, find_in_succ]
      unfold find_inF
      rw [tracker_make_from_wf hwf hadL, okBind]
      rw [show (pre ++ items ++ post) = pre ++ (m0.items ++ post) from
        List.append_assoc pre items post]
      rw [show (1 : ℕ) = 0 + 1 from rfl] at happ1
      rw [happ1, okBind]
    · refine List.mem_filter.mpr ⟨mem_sortByScore.mpr ?_, ?_⟩
      · refine List.mem_append.mpr (Or.inr (List.mem_append.mpr (Or.inl ?_)))
        have hml : m0.items.length = items.length := rfl
        have he : pre.length + (m0.items.length - 1) =
            pre.length + items.length - 1 := by
          rw [hml]
          have hil : 0 < items.length := List.length_pos.mpr hne
          omega
        rw [← he]
        exact hmem2
      · simp
  · have hM : MisMisQuote.make [[0], [1], [2]] 0 0 1 =
        .ok ⟨[[0], [1], [2]], 0, 0, 1,
          [([0], [1, 0, 0]), ([1], [0, 1, 0]), ([2], [0, 0, 1])]⟩ := by
      norm_num +decide [MisMisQuote.make, buildVectors, buildStep, setLoc,
        List.enum, List.enumFrom, List.replicate, List.set, List.any]
    have hT : MMQTracker.make 3 0 0 1 = .ok ⟨3, 0, 0, 1, []⟩ := by
      norm_num +decide [MMQTracker.make]
    have h0 : get_locmapF (find_in 1)
        ⟨[[0], [1], [2]], 0, 0, 1,
          [([0], [1, 0, 0]), ([1], [0, 1, 0]), ([2], [0, 0, 1])]⟩ [0] =
        .ok [1, 0, 0] := by
      norm_num +decide [get_locmapF, List.find?]
    have h1 : get_locmapF (find_in 1)
        ⟨[[0], [1], [2]], 0, 0, 1,
          [([0], [1, 0, 0]), ([1], [0, 1, 0]), ([2], [0, 0, 1])]⟩ [1] =
        .ok [0, 1, 0] := by
      norm_num +decide [get_locmapF, List.find?]
    have h2 : get_locmapF (find_in 1)
        ⟨[[0], [1], [2]], 0, 0, 1,
          [([0], [1, 0, 0]), ([1], [0, 1, 0]), ([2], [0, 0, 1])]⟩ [2] =
        .ok [0, 0, 1] := by
      norm_num +decide [get_locmapF, List.find?]
    have hs0 : MMQTracker.shiftand ⟨3, 0, 0, 1, []⟩ [1, 0, 0] =
        .ok (0, ⟨3, 0, 0, 1, [[0, 0, 1]]⟩) := by
      norm_num +decide [MMQTracker.shiftand, MMQTracker._and_tracker,
        MMQTracker._shift_last_tracker, List.range, List.range.loop,
        List.replicate, List.getLast?, List.getD, List.get?]
    have hs1 : MMQTracker.shiftand ⟨3, 0, 0, 1, [[0, 0, 1]]⟩ [0, 1, 0] =
        .ok (0, ⟨3, 0, 0, 1, [[0, 0, 1], [0, 1, 0]]⟩) := by
      norm_num +decide [MMQTracker.shiftand, MMQTracker._and_tracker,
        MMQTracker._shift_last_tracker, List.range, List.range.loop,
        List.replicate, List.getLast?, List.getD, List.get?]
    have hs2 : MMQTracker.shiftand ⟨3, 0, 0, 1, [[0, 0, 1], [0, 1, 0]]⟩
        [0, 0, 1] = .ok (1, ⟨3, 0, 0, 1, [[0, 0, 1], [0, 1, 0], [1, 0, 0]]⟩) := by
      norm_num +decide [MMQTracker.shiftand, MMQTracker._and_tracker,
        MMQTracker._shift_last_tracker, List.range, List.range.loop,
        List.replicate, List.getLast?, List.getD, List.get?]
    simp only [findIn, hM, okBind, find_in_succ, find_inF, List.length_cons,
      List.length_nil, Nat.zero_add, hT, scanLoopF, h0, hs0, h1, hs1, h2, hs2,
      sortByScore, insertByScore, List.foldr, List.filter]
    norm_num +decide [insertByScore]

/-- C5 (amended): on each call to `shiftand` with tolerance, for every `j`
below `allowed_differences` the alternate diagonal transition is computed
exactly when more than `j` states from prior calls exist (the guard
`j < len(self.tracker) - 1` being evaluated after the current state is
appended), and it is derived from the state produced `j + 1` calls earlier
(entry `j + 2` from the end of the history including the just-appended
state), shifted by `j + 2`, combined with the alignment under the step-2
rule, its entry 0 or-combined into the running score with distance `j`. -/
theorem C5_historic_diagonal (t : MMQTracker) (lm : List ℚ) :
    t.shiftand lm = shiftandAmendedX t lm := by
  simp only [MMQTracker.shiftand, shiftandAmendedX]
  by_cases hc : lm.length ≠ t.length
  · rw [if_pos hc, if_pos hc]
  · rw [if_neg hc, if_neg hc]
    simp only [Except.ok.injEq, Prod.mk.injEq]
    refine ⟨?_, trivial⟩
    by_cases had : t.allowed_differences ≠ 0
    · rw [if_pos had, if_pos had]
      apply List.foldl_ext
      intro sc j hj
      simp only [MMQTracker.orStep, MMQTracker._shift_old_tracker,
        and_tracker_update, List.length_append, List.length_cons,
        List.length_nil, Nat.add_sub_cancel, List.reverse_append,
        List.reverse_cons, List.reverse_nil, List.nil_append,
        List.singleton_append, List.getD_cons_succ]
    · rw [if_neg had, if_neg had]

/-- Counterexample to C5 as stated: with pattern length 3, tolerance 1,
multiplier 0 and exactly one prior-call state `[0, 0, 1]`, the code's second
call `shiftand([0, 0, 1])` yields score `1/2` - the `j = 0` diagonal is
taken with only one prior state, reading the state 1 call earlier - whereas
the claimed rule (diagonal only when more than `j + 1 = 1` prior states
exist, reading the state `j + 2 = 2` calls earlier) yields score `0`. -/
theorem C5_counterexample :
    MMQTracker.shiftand ⟨3, 1, 0, 0, [[0, 0, 1]]⟩ [0, 0, 1] =
      .ok (1 / 2, ⟨3, 1, 0, 0, [[0, 0, 1], [0, 0, 0]]⟩) ∧
    shiftandClaimed ⟨3, 1, 0, 0, [[0, 0, 1]]⟩ [0, 0, 1] =
      .ok (0, ⟨3, 1, 0, 0, [[0, 0, 1], [0, 0, 0]]⟩) ∧
    MMQTracker.shiftand ⟨3, 1, 0, 0, [[0, 0, 1]]⟩ [0, 0, 1] ≠
      shiftandClaimed ⟨3, 1, 0, 0, [[0, 0, 1]]⟩ [0, 0, 1] := by
  have h1 : MMQTracker.shiftand ⟨3, 1, 0, 0, [[0, 0, 1]]⟩ [0, 0, 1] =
      .ok (1 / 2, ⟨3, 1, 0, 0, [[0, 0, 1], [0, 0, 0]]⟩) := by
    norm_num +decide [MMQTracker.shiftand, MMQTracker.orStep,
      MMQTracker._and_tracker, MMQTracker._shift_last_tracker,
      MMQTracker._shift_old_tracker, _or, List.range, List.range.loop,
      List.replicate, List.getLast?, List.getD, List.get?, List.foldl,
      List.reverse, List.reverseAux, Int.toNat, min_def]
  have h2 : shiftandClaimed ⟨3, 1, 0, 0, [[0, 0, 1]]⟩ [0, 0, 1] =
      .ok (0, ⟨3, 1, 0, 0, [[0, 0, 1], [0, 0, 0]]⟩) := by
    norm_num +decide [shiftandClaimed, MMQTracker._and_tracker,
      MMQTracker._shift_last_tracker, _or, List.range, List.range.loop,
      List.replicate, List.getLast?, List.getD, List.get?, List.foldl,
      List.reverse, List.reverseAux, Int.toNat, min_def]
  refine ⟨h1, h2, ?_⟩
  rw [h1, h2]
  intro h
  have := (Prod.mk.inj (Except.ok.inj h)).1
  norm_num at this

/-- C3 (amended): the constructor eagerly validates pattern emptiness,
negative tolerance, the multiplier range and the threshold range, but not
the upper tolerance bound `allowed_differences < L` - only `MMQTracker`'s
constructor checks that, when `find_in` first runs; for every configuration
the constructor accepts that moreover satisfies the tracker bound for the
pattern and for every compound token, `find_in` raises no error at all (so
in particular no error besides the internal length-mismatch fault). -/
theorem C3_validation (items : List Item) (ad : ℤ) (mu th : ℚ) (m : MisMisQuote)
    (hmk : MisMisQuote.make items ad mu th = .ok m)
    (hadL : ad < (items.length : ℤ))
    (hcomp : ∀ k ∈ items, 1 < (k : Item).length → ad < ((k : Item).length : ℤ)) :
    (items ≠ [] ∧ 0 ≤ ad ∧ 0 ≤ mu ∧ mu < 1 ∧ 0 ≤ th ∧ th ≤ 1) ∧
    ∀ ref : List Item, ∃ res, find_in 2 m ref = .ok res := by
  obtain ⟨hitems, had, hmu, hth, hwf⟩ := make_ok_dest hmk
  constructor
  · refine ⟨?_, ?_, ?_, ?_, ?_, ?_⟩
    · rw [← hitems]; exact hwf.1
    · rw [← had]; exact hwf.2.1
    · rw [← hmu]; exact hwf.2.2.1
    · rw [← hmu]; exact hwf.2.2.2.1
    · rw [← hth]; exact hwf.2.2.2.2.1
    · rw [← hth]; exact hwf.2.2.2.2.2.1
  · intro ref
    exact find_in_two_ok hwf (by rw [had, hitems]; exact hadL)
      (by rw [had, hitems]; exact hcomp) 0 ref

/-- Witness for C3 (amended) at pattern `[[0], [1]]`, tolerance 1,
multiplier 0, threshold 1. -/
theorem C3_validation_witness :
    MisMisQuote.make [[0], [1]] 1 0 1 =
      .ok ⟨[[0], [1]], 1, 0, 1, [([0], [1, 0]), ([1], [0, 1])]⟩ ∧
    (1 : ℤ) < (([[0], [1]] : List Item).length : ℤ) ∧
    (∀ k ∈ ([[0], [1]] : List Item), 1 < (k : Item).length →
      (1 : ℤ) < ((k : Item).length : ℤ)) ∧
    ((([[0], [1]] : List Item) ≠ [] ∧ (0 : ℤ) ≤ 1 ∧ (0 : ℚ) ≤ 0 ∧ (0 : ℚ) < 1 ∧
        (0 : ℚ) ≤ 1 ∧ (1 : ℚ) ≤ 1) ∧
      ∀ ref : List Item, ∃ res,
        find_in 2 ⟨[[0], [1]], 1, 0, 1, [([0], [1, 0]), ([1], [0, 1])]⟩ ref =
          .ok res) := by
  have hmk : MisMisQuote.make [[0], [1]] 1 0 1 =
      .ok ⟨[[0], [1]], 1, 0, 1, [([0], [1, 0]), ([1], [0, 1])]⟩ := by
    norm_num +decide [MisMisQuote.make, buildVectors, buildStep, setLoc,
      List.enum, List.enumFrom, List.replicate, List.set, List.any]
  exact ⟨hmk, by norm_num, by decide,
    C3_validation [[0], [1]] 1 0 1 _ hmk (by norm_num) (by decide)⟩

/-- Counterexample to C3 as stated: the invalid configuration
`allowed_differences = 1 ≥ 1 = L` is not rejected when the matcher is
constructed - `MisMisQuote.__init__` never compares the tolerance against
the pattern length - and `find_in` then raises the tolerance error (not the
length-mismatch internal-consistency fault) on its first run. -/
theorem C3_counterexample :
    MisMisQuote.make [[0]] 1 0 1 = .ok ⟨[[0]], 1, 0, 1, [([0], [1])]⟩ ∧
    findIn [[0]] 1 0 1 [[0]] = .error .toleranceTooLarge := by
  have hM : MisMisQuote.make [[0]] 1 0 1 = .ok ⟨[[0]], 1, 0, 1, [([0], [1])]⟩ := by
    norm_num +decide [MisMisQuote.make, buildVectors, buildStep, setLoc,
      List.enum, List.enumFrom, List.replicate, List.set, List.any]
  have hT : MMQTracker.make 1 1 0 1 = .error .toleranceTooLarge := by
    norm_num +decide [MMQTracker.make]
  refine ⟨hM, ?_⟩
  simp only [findIn, hM, okBind, find_in_succ, find_inF, List.length_cons,
    List.length_nil, Nat.zero_add, hT, errBind]

/-- C4: the three guard `ValueError`s in the body of `_or` are constructed
but never raised - the `raise` keyword is missing - so `_or` returns
`min(1.0, newscore + oldscore/(2+howold))` for every input; in particular
at `newscore = 2`, `oldscore = 2` and `howold = -1`, each outside its
claimed admissible range, a value is returned instead of an `InvalidScore`
or `InvalidDistance` signal. -/
theorem C4_or_no_raise :
    _or 2 0 0 = 1 ∧ _or 0 2 0 = 1 ∧ _or 0 0 (-1) = 0 ∧
    ∀ (newscore oldscore : ℚ) (howold : ℤ),
      _or newscore oldscore howold =
        min 1 (newscore + oldscore / (2 + (howold : ℚ))) :=
  ⟨by norm_num [_or, min_def], by norm_num [_or, min_def],
   by norm_num [_or, min_def], fun a b c => rfl⟩

/-- C8: scenario D.  Pattern `[a, b, c]` with `nomatch_multiplier = 1/2`,
`allowed_differences = 0`, `threshold = 1/2`, scanned over reference
`[a, x, c]` whose middle token matches no pattern token, yields exactly one
result, at end-position 2 with score `1/2`: the multiplier applied exactly
once for the single mismatched position. -/
theorem C8_scenario_D :
    findIn [[0], [1], [2]] 0 (1 / 2) (1 / 2) [[0], [9], [2]] =
      .ok [(2, 1 / 2)] := by
  have hM : MisMisQuote.make [[0], [1], [2]] 0 (1 / 2) (1 / 2) =
      .ok ⟨[[0], [1], [2]], 0, 1 / 2, 1 / 2,
        [([0], [1, 0, 0]), ([1], [0, 1, 0]), ([2], [0, 0, 1])]⟩ := by
    norm_num +decide [MisMisQuote.make, buildVectors, buildStep, setLoc,
      List.enum, List.enumFrom, List.replicate, List.set, List.any]
  have hT : MMQTracker.make 3 0 (1 / 2) (1 / 2) = .ok ⟨3, 0, 1 / 2, 1 / 2, []⟩ := by
    norm_num +decide [MMQTracker.make]
  have h0 : get_locmapF (find_in 1)
      ⟨[[0], [1], [2]], 0, 1 / 2, 1 / 2,
        [([0], [1, 0, 0]), ([1], [0, 1, 0]), ([2], [0, 0, 1])]⟩ [0] =
      .ok [1, 0, 0] := by
    norm_num +decide [get_locmapF, List.find?]
  have h9 : get_locmapF (find_in 1)
      ⟨[[0], [1], [2]], 0, 1 / 2, 1 / 2,
        [([0], [1, 0, 0]), ([1], [0, 1, 0]), ([2], [0, 0, 1])]⟩ [9] =
      .ok [0, 0, 0] := by
    norm_num +decide [get_locmapF, potentialsLoopF, toSingles, sortByScore,
      List.foldr, List.find?, List.replicate, okBind, pureBind]
  have h2 : get_locmapF (find_in 1)
      ⟨[[0], [1], [2]], 0, 1 / 2, 1 / 2,
        [([0], [1, 0, 0]), ([1], [0, 1, 0]), ([2], [0, 0, 1])]⟩ [2] =
      .ok [0, 0, 1] := by
    norm_num +decide [get_locmapF, List.find?]
  have hs0 : MMQTracker.shiftand ⟨3, 0, 1 / 2, 1 / 2, []⟩ [1, 0, 0] =
      .ok (1 / 4, ⟨3, 0, 1 / 2, 1 / 2, [[1 / 4, 1 / 4, 1]]⟩) := by
    norm_num +decide [MMQTracker.shiftand, MMQTracker._and_tracker,
      MMQTracker._shift_last_tracker, List.range, List.range.loop,
      List.replicate, List.getLast?, List.getD, List.get?]
  have hs1 : MMQTracker.shiftand ⟨3, 0, 1 / 2, 1 / 2, [[1 / 4, 1 / 4, 1]]⟩
      [0, 0, 0] =
      .ok (1 / 8, ⟨3, 0, 1 / 2, 1 / 2,
        [[1 / 4, 1 / 4, 1], [1 / 8, 1 / 2, 1 / 2]]⟩) := by
    norm_num +decide [MMQTracker.shiftand, MMQTracker._and_tracker,
      MMQTracker._shift_last_tracker, List.range, List.range.loop,
      List.replicate, List.getLast?, List.getD, List.get?]
  have hs2 : MMQTracker.shiftand
      ⟨3, 0, 1 / 2, 1 / 2, [[1 / 4, 1 / 4, 1], [1 / 8, 1 / 2, 1 / 2]]⟩
      [0, 0, 1] =
      .ok (1 / 2, ⟨3, 0, 1 / 2, 1 / 2,
        [[1 / 4, 1 / 4, 1], [1 / 8, 1 / 2, 1 / 2], [1 / 2, 1 / 4, 1 / 2]]⟩) := by
    norm_num +decide [MMQTracker.shiftand, MMQTracker._and_tracker,
      MMQTracker._shift_last_tracker, List.range, List.range.loop,
      List.replicate, List.getLast?, List.getD, List.get?]
  simp only [findIn, hM, okBind, find_in_succ, find_inF, List.length_cons,
    List.length_nil, Nat.zero_add, hT, scanLoopF, h0, hs0, h9, hs1, h2, hs2,
    sortByScore, insertByScore, List.foldr, List.filter]
  norm_num +decide [insertByScore]

/-- C2: for every configuration the constructor accepts and every
reference, every `(position, confidence)` pair `find_in` returns has its
confidence in the closed interval `[0, 1]` and at least the threshold. -/
theorem C2_result_bounds (items : List Item) (ad : ℤ) (mu th : ℚ)
    (m : MisMisQuote) (hmk : MisMisQuote.make items ad mu th = .ok m)
    (ref : List Item) (res : List (ℕ × ℚ)) (hres : find_in 2 m ref = .ok res) :
    ∀ p ∈ res, (0 ≤ (p : ℕ × ℚ).2 ∧ p.2 ≤ 1) ∧ th ≤ p.2 := by
  have hwf := (make_ok_dest hmk).2.2.2.2
  have hth := (make_ok_dest hmk).2.2.2.1
  intro p hp
  refine ⟨find_in_bounds 2 m hwf ref res hres p hp, ?_⟩
  rw [show (2 : ℕ) = 1 + 1 from rfl, find_in_succ] at hres
  unfold find_inF at hres
  obtain ⟨t, ht, h2⟩ := bind_eq_ok hres
  obtain ⟨pr, hpr, h3⟩ := bind_eq_ok h2
  rw [← Except.ok.inj h3] at hp
  rw [← hth]
  exact of_decide_eq_true (List.mem_filter.mp hp).2

/-- Witness for C2 at pattern `[[0]]` with the default configuration and
reference `[[0]]`: the single result `(0, 1)` obeys both bounds. -/
theorem C2_result_bounds_witness :
    MisMisQuote.make [[0]] 0 0 1 = .ok ⟨[[0]], 0, 0, 1, [([0], [1])]⟩ ∧
    find_in 2 ⟨[[0]], 0, 0, 1, [([0], [1])]⟩ [[0]] = .ok [(0, 1)] ∧
    ∀ p ∈ ([(0, 1)] : List (ℕ × ℚ)),
      (0 ≤ (p : ℕ × ℚ).2 ∧ p.2 ≤ 1) ∧ (1 : ℚ) ≤ p.2 := by
  have hM : MisMisQuote.make [[0]] 0 0 1 = .ok ⟨[[0]], 0, 0, 1, [([0], [1])]⟩ := by
    norm_num +decide [MisMisQuote.make, buildVectors, buildStep, setLoc,
      List.enum, List.enumFrom, List.replicate, List.set, List.any]
  have hT : MMQTracker.make 1 0 0 1 = .ok ⟨1, 0, 0, 1, []⟩ := by
    norm_num +decide [MMQTracker.make]
  have hlm : get_locmapF (find_in 1) ⟨[[0]], 0, 0, 1, [([0], [1])]⟩ [0] =
      .ok [1] := by
    norm_num +decide [get_locmapF, List.find?]
  have hs : MMQTracker.shiftand ⟨1, 0, 0, 1, []⟩ [1] =
      .ok (1, ⟨1, 0, 0, 1, [[1]]⟩) := by
    norm_num +decide [MMQTracker.shiftand, MMQTracker._and_tracker,
      MMQTracker._shift_last_tracker, List.range, List.range.loop,
      List.replicate, List.getLast?, List.getD, List.get?]
  have hF : find_in 2 ⟨[[0]], 0, 0, 1, [([0], [1])]⟩ [[0]] = .ok [(0, 1)] := by
    simp only [show (2 : ℕ) = 1 + 1 from rfl, find_in_succ, find_inF,
      List.length_cons, List.length_nil, Nat.zero_add, hT, okBind, scanLoopF,
      hlm, hs, sortByScore, insertByScore, List.foldr, List.filter]
    norm_num
  exact ⟨hM, hF, C2_result_bounds [[0]] 0 0 1 _ hM [[0]] [(0, 1)] hF⟩

/-- C9: for a matcher the constructor built, every alignment vector
`get_locmap` produces - exact hit, fuzzy scaled or all-zero - has exactly
the pattern length, and consequently the length-mismatch branch of
`shiftand` is never taken: `find_in` never returns the `lengthMismatch`
fault, at any recursion depth. -/
theorem C9_no_length_mismatch (items : List Item) (ad : ℤ) (mu th : ℚ)
    (m : MisMisQuote) (hmk : MisMisQuote.make items ad mu th = .ok m) :
    (∀ (fuel : ℕ) (it : Item) (v : List ℚ),
       get_locmap fuel m it = .ok v → v.length = items.length) ∧
    ∀ (fuel : ℕ) (ref : List Item),
      find_in fuel m ref ≠ .error .lengthMismatch := by
  have hwf := (make_ok_dest hmk).2.2.2.2
  have hit := (make_ok_dest hmk).1
  constructor
  · intro fuel it v hv
    rw [← hit]
    exact get_locmap_len hwf hv
  · intro fuel ref
    exact find_in_no_LM fuel m hwf ref

/-- Witness for C9 at pattern `[[0], [1]]`, tolerance 1. -/
theorem C9_no_length_mismatch_witness :
    MisMisQuote.make [[0], [1]] 1 0 1 =
      .ok ⟨[[0], [1]], 1, 0, 1, [([0], [1, 0]), ([1], [0, 1])]⟩ ∧
    ((∀ (fuel : ℕ) (it : Item) (v : List ℚ),
       get_locmap fuel ⟨[[0], [1]], 1, 0, 1, [([0], [1, 0]), ([1], [0, 1])]⟩ it =
         .ok v → v.length = ([[0], [1]] : List Item).length) ∧
     ∀ (fuel : ℕ) (ref : List Item),
       find_in fuel ⟨[[0], [1]], 1, 0, 1, [([0], [1, 0]), ([1], [0, 1])]⟩ ref ≠
         .error .lengthMismatch) := by
  have hM : MisMisQuote.make [[0], [1]] 1 0 1 =
      .ok ⟨[[0], [1]], 1, 0, 1, [([0], [1, 0]), ([1], [0, 1])]⟩ := by
    norm_num +decide [MisMisQuote.make, buildVectors, buildStep, setLoc,
      List.enum, List.enumFrom, List.replicate, List.set, List.any]
  exact ⟨hM, C9_no_length_mismatch [[0], [1]] 1 0 1 _ hM⟩

/-- C10: for every otherwise-valid configuration whose pattern contains a
compound token with no more elements than `allowed_differences`, matcher
construction succeeds - the constructor never compares the tolerance
against any length - but `find_in` raises the tolerance `ValueError` as
soon as the reference contains a token equal to no pattern token: the fuzzy
query then rebuilds the compound token's nested matcher, whose tracker
constructor rejects `allowed_differences >= length`.  (When the tolerance
also reaches the pattern length itself, the same error is raised by the
top-level tracker even before the scan.) -/
theorem C10_nested_tolerance (items : List Item) (ad : ℤ) (mu th : ℚ)
    (hne : items ≠ []) (had : ¬ad < 0) (hmu : ¬(mu < 0 ∨ 1 ≤ mu))
    (hth : ¬(th < 0 ∨ 1 < th))
    (hshort : ∃ k ∈ items, 1 < (k : Item).length ∧ ((k : Item).length : ℤ) ≤ ad)
    (pre post : List Item) (u : Item) (hpre : ∀ p ∈ pre, p ∈ items)
    (hu : u ∉ items) :
    (∃ m, MisMisQuote.make items ad mu th = .ok m) ∧
    findIn items ad mu th (pre ++ u :: post) = .error .toleranceTooLarge := by
  have hmk := make_ok_of_valid hne had hmu hth
  refine ⟨⟨_, hmk⟩, ?_⟩
  set m0 : MisMisQuote := ⟨items, ad, mu, th, buildVectors items.length items⟩
    with hm0
  have hwf : m0.Wf := (make_ok_dest hmk).2.2.2.2
  show (do
    let m ← MisMisQuote.make items ad mu th
    find_in 2 m (pre ++ u :: post)) = _
  rw [hmk, okBind, show (2 : ℕ) = 1 + 1 from rfl, find_in_succ]
  unfold find_inF
  by_cases hadL : ad < (items.length : ℤ)
  · rw [tracker_make_from_wf hwf (by exact hadL), okBind]
    rw [scanLoopF_short_err hwf (by exact hshort) (by exact hu) post pre
      (by exact hpre) _ rfl 0, errBind]
  · have hT : MMQTracker.make m0.items.length m0.allowed_differences
        m0.nomatch_multiplier m0.threshold = .error .toleranceTooLarge := by
      unfold MMQTracker.make
      rw [if_neg (show ¬m0.items.length = 0 by
            simpa [List.length_eq_zero] using hne),
        if_neg (show ¬m0.allowed_differences < 0 from had),
        if_pos (show (m0.items.length : ℤ) ≤ m0.allowed_differences by
            exact not_lt.mp hadL)]
    rw [hT, errBind]

/-- Witness for C10 at pattern `[[0, 1], [2], [3]]` with tolerance 2 and an
unknown reference token `[9]`. -/
theorem C10_nested_tolerance_witness :
    (([[0, 1], [2], [3]] : List Item) ≠ [] ∧ ¬(2 : ℤ) < 0 ∧
      ¬((0 : ℚ) < 0 ∨ 1 ≤ (0 : ℚ)) ∧ ¬((1 : ℚ) < 0 ∨ 1 < (1 : ℚ))) ∧
    (∃ k ∈ ([[0, 1], [2], [3]] : List Item), 1 < (k : Item).length ∧
      ((k : Item).length : ℤ) ≤ 2) ∧
    ((∃ m, MisMisQuote.make [[0, 1], [2], [3]] 2 0 1 = .ok m) ∧
     findIn [[0, 1], [2], [3]] 2 0 1 ([] ++ [9] :: []) =
       .error .toleranceTooLarge) := by
  have h1 : ¬((0 : ℚ) < 0 ∨ 1 ≤ (0 : ℚ)) := by norm_num
  have h2 : ¬((1 : ℚ) < 0 ∨ 1 < (1 : ℚ)) := by norm_num
  have hsh : ∃ k ∈ ([[0, 1], [2], [3]] : List Item), 1 < (k : Item).length ∧
      ((k : Item).length : ℤ) ≤ 2 := ⟨[0, 1], by decide, by decide, by decide⟩
  exact ⟨⟨by decide, by decide, h1, h2⟩, hsh,
    C10_nested_tolerance [[0, 1], [2], [3]] 2 0 1 (by decide) (by decide) h1 h2
      hsh [] [] [9] (by simp) (by decide)⟩

/-- C7: fuzzy query.  For a query token equal to no pattern token, the
candidates `get_locmap` collects all come from running a nested
sub-matcher's `find_in` on the token's constituent elements; when no
candidate exists the result is the all-zero vector of length `L`, and when
candidates exist the result is the winning pattern token's occurrence
vector with every entry multiplied by the single best candidate confidence
(the winner's score bounds every candidate's).  In the instance of scenario
E - pattern token "lorem" as `[0, 1, 2, 3, 4]`, reference token "lorm" as
`[0, 1, 2, 4]`, nested tolerance 1 - the query returns the occurrence
vector scaled by confidence `1/2`, strictly between 0 and 1. -/
theorem C7_fuzzy_query (fn : MisMisQuote → List Item → Except Err (List (ℕ × ℚ)))
    (m : MisMisQuote) (hwf : m.Wf) (u : Item) (hu : u ∉ m.items)
    (ps : List (Item × ℚ))
    (hps : potentialsLoopF fn m (toSingles u) m.vectors = .ok ps) :
    ((ps = [] → get_locmapF fn m u = .ok (List.replicate m.items.length 0)) ∧
     (ps ≠ [] → ∃ w ∈ ps, (∀ p ∈ ps, (p : Item × ℚ).2 ≤ w.2) ∧
       (∃ sub r rs, MisMisQuote.make (toSingles w.1) m.allowed_differences
           m.nomatch_multiplier m.threshold = .ok sub ∧
         fn sub (toSingles u) = .ok (r :: rs) ∧ w.2 = (r : ℕ × ℚ).2) ∧
       ∃ v, (w.1, v) ∈ m.vectors ∧
         get_locmapF fn m u = .ok (v.map fun x => x * w.2))) ∧
    (get_locmap 1 ⟨[[0, 1, 2, 3, 4]], 1, 0, 1 / 2, [([0, 1, 2, 3, 4], [1])]⟩
        [0, 1, 2, 4] = .ok [1 / 2] ∧ (0 : ℚ) < 1 / 2 ∧ (1 / 2 : ℚ) < 1) := by
  have hnone : (m.vectors.find? fun e => e.1 = u) = none := by
    rw [hwf.2.2.2.2.2.2]
    exact buildVectors_find?_none.mpr hu
  constructor
  · constructor
    · intro hempty
      subst hempty
      unfold get_locmapF
      rw [hnone, hps, okBind]
      rfl
    · intro hnonempty
      match hsort : sortByScore ps with
      | [] =>
          have hperm := sortByScore_perm ps
          rw [hsort] at hperm
          exact absurd hperm.symm.eq_nil hnonempty
      | w :: rest =>
          have hwps : w ∈ ps := mem_sortByScore.mp (hsort ▸ List.mem_cons_self w rest)
          have hmax := sortByScore_head_max hsort
          obtain ⟨hkey, sub, r, rs, hmk2, hres, hw2⟩ :=
            potentialsLoopF_src m.vectors ps hps w hwps
          obtain ⟨e', hfind', hmem', hk'⟩ := find?_key_some hkey
          refine ⟨w, hwps, hmax, ⟨sub, r, rs, hmk2, hres, hw2⟩, e'.2, ?_, ?_⟩
          · rw [← hk']
            exact hmem'
          · unfold get_locmapF
            rw [hnone, hps, okBind, hsort]
            show Except.ok ((((m.vectors.find? fun e => e.1 = w.1).map
                fun x => x.2).getD []).map fun x => x * w.2) = _
            rw [hfind']
            simp
  · refine ⟨?_, by norm_num, by norm_num⟩
    have hT5 : MMQTracker.make 5 1 0 (1 / 2) = .ok ⟨5, 1, 0, 1 / 2, []⟩ := by
      norm_num +decide [MMQTracker.make]
    have hM5 : MisMisQuote.make (toSingles [0, 1, 2, 3, 4]) 1 0 (1 / 2) =
        .ok ⟨[[0], [1], [2], [3], [4]], 1, 0, 1 / 2,
          [([0], [1, 0, 0, 0, 0]), ([1], [0, 1, 0, 0, 0]), ([2], [0, 0, 1, 0, 0]),
           ([3], [0, 0, 0, 1, 0]), ([4], [0, 0, 0, 0, 1])]⟩ := by
      norm_num +decide [MisMisQuote.make, toSingles, buildVectors, buildStep,
        setLoc, List.enum, List.enumFrom, List.replicate, List.set, List.any]
    have hl0 : get_locmapF (find_in 0)
        ⟨[[0], [1], [2], [3], [4]], 1, 0, 1 / 2,
          [([0], [1, 0, 0, 0, 0]), ([1], [0, 1, 0, 0, 0]), ([2], [0, 0, 1, 0, 0]),
           ([3], [0, 0, 0, 1, 0]), ([4], [0, 0, 0, 0, 1])]⟩ [0] =
        .ok [1, 0, 0, 0, 0] := by
      norm_num +decide [get_locmapF, List.find?]
    have hl1 : get_locmapF (find_in 0)
        ⟨[[0], [1], [2], [3], [4]], 1, 0, 1 / 2,
          [([0], [1, 0, 0, 0, 0]), ([1], [0, 1, 0, 0, 0]), ([2], [0, 0, 1, 0, 0]),
           ([3], [0, 0, 0, 1, 0]), ([4], [0, 0, 0, 0, 1])]⟩ [1] =
        .ok [0, 1, 0, 0, 0] := by
      norm_num +decide [get_locmapF, List.find?]
    have hl2 : get_locmapF (find_in 0)
        ⟨[[0], [1], [2], [3], [4]], 1, 0, 1 / 2,
          [([0], [1, 0, 0, 0, 0]), ([1], [0, 1, 0, 0, 0]), ([2], [0, 0, 1, 0, 0]),
           ([3], [0, 0, 0, 1, 0]), ([4], [0, 0, 0, 0, 1])]⟩ [2] =
        .ok [0, 0, 1, 0, 0] := by
      norm_num +decide [get_locmapF, List.find?]
    have hl4 : get_locmapF (find_in 0)
        ⟨[[0], [1], [2], [3], [4]], 1, 0, 1 / 2,
          [([0], [1, 0, 0, 0, 0]), ([1], [0, 1, 0, 0, 0]), ([2], [0, 0, 1, 0, 0]),
           ([3], [0, 0, 0, 1, 0]), ([4], [0, 0, 0, 0, 1])]⟩ [4] =
        .ok [0, 0, 0, 0, 1] := by
      norm_num +decide [get_locmapF, List.find?]
    have hq0 : MMQTracker.shiftand ⟨5, 1, 0, 1 / 2, []⟩ [1, 0, 0, 0, 0] =
        .ok (0, ⟨5, 1, 0, 1 / 2, [[0, 0, 0, 0, 1]]⟩) := by
      norm_num +decide [MMQTracker.shiftand, MMQTracker.orStep,
        MMQTracker._and_tracker, MMQTracker._shift_last_tracker,
        MMQTracker._shift_old_tracker, _or, Int.toNat, List.range,
        List.range.loop, List.replicate, List.getLast?, List.getD, List.get?,
        List.foldl, List.reverse, List.reverseAux, min_def]
    have hq1 : MMQTracker.shiftand ⟨5, 1, 0, 1 / 2, [[0, 0, 0, 0, 1]]⟩
        [0, 1, 0, 0, 0] =
        .ok (0, ⟨5, 1, 0, 1 / 2, [[0, 0, 0, 0, 1], [0, 0, 0, 1, 0]]⟩) := by
      norm_num +decide [MMQTracker.shiftand, MMQTracker.orStep,
        MMQTracker._and_tracker, MMQTracker._shift_last_tracker,
        MMQTracker._shift_old_tracker, _or, Int.toNat, List.range,
        List.range.loop, List.replicate, List.getLast?, List.getD, List.get?,
        List.foldl, List.reverse, List.reverseAux, min_def]
    have hq2 : MMQTracker.shiftand
        ⟨5, 1, 0, 1 / 2, [[0, 0, 0, 0, 1], [0, 0, 0, 1, 0]]⟩ [0, 0, 1, 0, 0] =
        .ok (0, ⟨5, 1, 0, 1 / 2,
          [[0, 0, 0, 0, 1], [0, 0, 0, 1, 0], [0, 0, 1, 0, 0]]⟩) := by
      norm_num +decide [MMQTracker.shiftand, MMQTracker.orStep,
        MMQTracker._and_tracker, MMQTracker._shift_last_tracker,
        MMQTracker._shift_old_tracker, _or, Int.toNat, List.range,
        List.range.loop, List.replicate, List.getLast?, List.getD, List.get?,
        List.foldl, List.reverse, List.reverseAux, min_def]
    have hq3 : MMQTracker.shiftand
        ⟨5, 1, 0, 1 / 2, [[0, 0, 0, 0, 1], [0, 0, 0, 1, 0], [0, 0, 1, 0, 0]]⟩
        [0, 0, 0, 0, 1] =
        .ok (1 / 2, ⟨5, 1, 0, 1 / 2,
          [[0, 0, 0, 0, 1], [0, 0, 0, 1, 0], [0, 0, 1, 0, 0],
           [0, 0, 0, 0, 0]]⟩) := by
      norm_num +decide [MMQTracker.shiftand, MMQTracker.orStep,
        MMQTracker._and_tracker, MMQTracker._shift_last_tracker,
        MMQTracker._shift_old_tracker, _or, Int.toNat, List.range,
        List.range.loop, List.replicate, List.getLast?, List.getD, List.get?,
        List.foldl, List.reverse, List.reverseAux, min_def]
    have hF5 : find_in 1
        ⟨[[0], [1], [2], [3], [4]], 1, 0, 1 / 2,
          [([0], [1, 0, 0, 0, 0]), ([1], [0, 1, 0, 0, 0]), ([2], [0, 0, 1, 0, 0]),
           ([3], [0, 0, 0, 1, 0]), ([4], [0, 0, 0, 0, 1])]⟩
        [[0], [1], [2], [4]] = .ok [(3, 1 / 2)] := by
      show find_inF (find_in 0)
        ⟨[[0], [1], [2], [3], [4]], 1, 0, 1 / 2,
          [([0], [1, 0, 0, 0, 0]), ([1], [0, 1, 0, 0, 0]), ([2], [0, 0, 1, 0, 0]),
           ([3], [0, 0, 0, 1, 0]), ([4], [0, 0, 0, 0, 1])]⟩
        [[0], [1], [2], [4]] = .ok [(3, 1 / 2)]
      simp only [find_inF, List.length_cons, List.length_nil, Nat.zero_add,
        hT5, okBind, scanLoopF, hl0, hq0, hl1, hq1, hl2, hq2, hl4, hq3,
        sortByScore, insertByScore, List.foldr, List.filter]
      norm_num +decide [insertByScore]
    have hMS : MisMisQuote.make [[0], [1], [2], [3], [4]] 1 0 (1 / 2) =
        .ok ⟨[[0], [1], [2], [3], [4]], 1, 0, 1 / 2,
          [([0], [1, 0, 0, 0, 0]), ([1], [0, 1, 0, 0, 0]), ([2], [0, 0, 1, 0, 0]),
           ([3], [0, 0, 0, 1, 0]), ([4], [0, 0, 0, 0, 1])]⟩ := hM5
    have hP : potentialsLoopF (find_in 1)
        ⟨[[0, 1, 2, 3, 4]], 1, 0, 1 / 2, [([0, 1, 2, 3, 4], [1])]⟩
        (toSingles [0, 1, 2, 4]) [([0, 1, 2, 3, 4], [1])] =
        .ok [([0, 1, 2, 3, 4], 1 / 2)] := by
      simp only [potentialsLoopF, toSingles, List.map]
      rw [if_pos (show (1 : ℕ) < List.length ([0, 1, 2, 3, 4] : List ℕ) by
          norm_num), hMS, okBind, hF5, okBind, pureBind, okBind]
      rfl
    show get_locmapF (find_in 1)
        ⟨[[0, 1, 2, 3, 4]], 1, 0, 1 / 2, [([0, 1, 2, 3, 4], [1])]⟩
        [0, 1, 2, 4] = .ok [1 / 2]
    simp only [get_locmapF]
    norm_num +decide [List.find?, hP, okBind, sortByScore, insertByScore,
      List.foldr]

/-- Witness for C7 at the one-token pattern `[[0, 1]]` with the default
configuration and the unknown probe `[9]`: the candidate list is empty and
the query returns the all-zero vector. -/
theorem C7_fuzzy_query_witness :
    (⟨[[0, 1]], 0, 0, 1, [([0, 1], [1])]⟩ : MisMisQuote).Wf ∧
    ([9] : Item) ∉ ([[0, 1]] : List Item) ∧
    potentialsLoopF (find_in 1) ⟨[[0, 1]], 0, 0, 1, [([0, 1], [1])]⟩
      (toSingles [9]) [([0, 1], [1])] = .ok [] ∧
    get_locmapF (find_in 1) ⟨[[0, 1]], 0, 0, 1, [([0, 1], [1])]⟩ [9] =
      .ok (List.replicate ([[0, 1]] : List Item).length 0) := by
  have hmk : MisMisQuote.make [[0, 1]] 0 0 1 =
      .ok ⟨[[0, 1]], 0, 0, 1, [([0, 1], [1])]⟩ := by
    norm_num +decide [MisMisQuote.make, buildVectors, buildStep, setLoc,
      List.enum, List.enumFrom, List.replicate, List.set, List.any]
  have hwf := (make_ok_dest hmk).2.2.2.2
  have hu : ([9] : Item) ∉ ([[0, 1]] : List Item) := by decide
  have hM2 : MisMisQuote.make (toSingles [0, 1]) 0 0 1 =
      .ok ⟨[[0], [1]], 0, 0, 1, [([0], [1, 0]), ([1], [0, 1])]⟩ := by
    norm_num +decide [MisMisQuote.make, toSingles, buildVectors, buildStep,
      setLoc, List.enum, List.enumFrom, List.replicate, List.set, List.any]
  have hT2 : MMQTracker.make 2 0 0 1 = .ok ⟨2, 0, 0, 1, []⟩ := by
    norm_num +decide [MMQTracker.make]
  have hl9 : get_locmapF (find_in 0)
      ⟨[[0], [1]], 0, 0, 1, [([0], [1, 0]), ([1], [0, 1])]⟩ [9] =
      .ok [0, 0] := by
    norm_num +decide [get_locmapF, potentialsLoopF, toSingles, sortByScore,
      List.foldr, List.find?, List.replicate, okBind, pureBind]
  have hq : MMQTracker.shiftand ⟨2, 0, 0, 1, []⟩ [0, 0] =
      .ok (0, ⟨2, 0, 0, 1, [[0, 0]]⟩) := by
    norm_num +decide [MMQTracker.shiftand, MMQTracker._and_tracker,
      MMQTracker._shift_last_tracker, List.range, List.range.loop,
      List.replicate, List.getLast?, List.getD, List.get?]
  have hF2 : find_in 1 ⟨[[0], [1]], 0, 0, 1, [([0], [1, 0]), ([1], [0, 1])]⟩
      [[9]] = .ok [] := by
    show find_inF (find_in 0) ⟨[[0], [1]], 0, 0, 1, [([0], [1, 0]), ([1], [0, 1])]⟩
      [[9]] = .ok []
    simp only [find_inF, List.length_cons, List.length_nil, Nat.zero_add, hT2,
      okBind, scanLoopF, hl9, hq, sortByScore, insertByScore, List.foldr,
      List.filter]
    norm_num
  have hM2S : MisMisQuote.make [[0], [1]] 0 0 1 =
      .ok ⟨[[0], [1]], 0, 0, 1, [([0], [1, 0]), ([1], [0, 1])]⟩ := hM2
  have hps : potentialsLoopF (find_in 1) ⟨[[0, 1]], 0, 0, 1, [([0, 1], [1])]⟩
      (toSingles [9]) [([0, 1], [1])] = .ok [] := by
    simp only [potentialsLoopF, toSingles, List.map]
    rw [if_pos (show (1 : ℕ) < List.length ([0, 1] : List ℕ) by norm_num),
      hM2S, okBind, hF2, okBind, pureBind, okBind]
    rfl
  exact ⟨hwf, hu, hps,
    (C7_fuzzy_query (find_in 1) _ hwf [9] hu [] hps).1.1 rfl⟩

/-- Counterexample to C6 as stated: pattern `[a, b]`, tolerance 1,
threshold 0, reference `[b]`.  With `nomatch_multiplier = 0` the synthetic
first-call filler is `1/(allowed_differences + 1) = 1/2` and the score at
position 0 is `1/2`; raising the multiplier to `3/10` makes the filler
`3/10` and the score drops to `9/20 < 1/2`: increasing the multiplier
decreased a confidence score. -/
theorem C6_counterexample :
    findIn [[0], [1]] 1 0 0 [[1]] = .ok [(0, 1 / 2)] ∧
    findIn [[0], [1]] 1 (3 / 10) 0 [[1]] = .ok [(0, 9 / 20)] ∧
    (9 / 20 : ℚ) < 1 / 2 := by
  have hMa : MisMisQuote.make [[0], [1]] 1 0 0 =
      .ok ⟨[[0], [1]], 1, 0, 0, [([0], [1, 0]), ([1], [0, 1])]⟩ := by
    norm_num +decide [MisMisQuote.make, buildVectors, buildStep, setLoc,
      List.enum, List.enumFrom, List.replicate, List.set, List.any]
  have hMb : MisMisQuote.make [[0], [1]] 1 (3 / 10) 0 =
      .ok ⟨[[0], [1]], 1, 3 / 10, 0, [([0], [1, 0]), ([1], [0, 1])]⟩ := by
    norm_num +decide [MisMisQuote.make, buildVectors, buildStep, setLoc,
      List.enum, List.enumFrom, List.replicate, List.set, List.any]
  have hTa : MMQTracker.make 2 1 0 0 = .ok ⟨2, 1, 0, 0, []⟩ := by
    norm_num +decide [MMQTracker.make]
  have hTb : MMQTracker.make 2 1 (3 / 10) 0 = .ok ⟨2, 1, 3 / 10, 0, []⟩ := by
    norm_num +decide [MMQTracker.make]
  have hla : get_locmapF (find_in 1)
      ⟨[[0], [1]], 1, 0, 0, [([0], [1, 0]), ([1], [0, 1])]⟩ [1] =
      .ok [0, 1] := by
    norm_num +decide [get_locmapF, List.find?]
  have hlb : get_locmapF (find_in 1)
      ⟨[[0], [1]], 1, 3 / 10, 0, [([0], [1, 0]), ([1], [0, 1])]⟩ [1] =
      .ok [0, 1] := by
    norm_num +decide [get_locmapF, List.find?]
  have hsa : MMQTracker.shiftand ⟨2, 1, 0, 0, []⟩ [0, 1] =
      .ok (1 / 2, ⟨2, 1, 0, 0, [[1 / 2, 0]]⟩) := by
    norm_num +decide [MMQTracker.shiftand, MMQTracker.orStep,
      MMQTracker._and_tracker, MMQTracker._shift_last_tracker,
      MMQTracker._shift_old_tracker, _or, Int.toNat, List.range,
      List.range.loop, List.replicate, List.getLast?, List.getD, List.get?,
      List.foldl, List.reverse, List.reverseAux, min_def]
  have hsb : MMQTracker.shiftand ⟨2, 1, 3 / 10, 0, []⟩ [0, 1] =
      .ok (9 / 20, ⟨2, 1, 3 / 10, 0, [[3 / 10, 3 / 10]]⟩) := by
    norm_num +decide [MMQTracker.shiftand, MMQTracker.orStep,
      MMQTracker._and_tracker, MMQTracker._shift_last_tracker,
      MMQTracker._shift_old_tracker, _or, Int.toNat, List.range,
      List.range.loop, List.replicate, List.getLast?, List.getD, List.get?,
      List.foldl, List.reverse, List.reverseAux, min_def]
  refine ⟨?_, ?_, by norm_num⟩
  · simp only [findIn, hMa, okBind, show (2 : ℕ) = 1 + 1 from rfl, find_in_succ,
      find_inF, List.length_cons, List.length_nil, Nat.zero_add, hTa, scanLoopF,
      hla, hsa, sortByScore, insertByScore, List.foldr, List.filter]
    norm_num
  · simp only [findIn, hMb, okBind, show (2 : ℕ) = 1 + 1 from rfl, find_in_succ,
      find_inF, List.length_cons, List.length_nil, Nat.zero_add, hTb, scanLoopF,
      hlb, hsb, sortByScore, insertByScore, List.foldr, List.filter]
    norm_num

/-- C6 (amended): monotonic decay for atom-only patterns.  For two
configurations identical except for the multiplier, `mu1 ≤ mu2`, both
accepted by the constructor, tolerance below the pattern length, every
pattern token atomic, and either `0 < mu1` or `allowed_differences = 0`
(ruling out the synthetic-filler jump at `mu = 0` that refutes the
unrestricted claim), the raw per-position scores of the scan with `mu2`
dominate those of the scan with `mu1`, position by position. -/
theorem C6_monotonic (items : List Item) (ad : ℤ) (mu1 mu2 th : ℚ)
    (m1 m2 : MisMisQuote)
    (h1 : MisMisQuote.make items ad mu1 th = .ok m1)
    (h2 : MisMisQuote.make items ad mu2 th = .ok m2)
    (hatom : ∀ k ∈ items, (k : Item).length ≤ 1)
    (hmu12 : mu1 ≤ mu2) (hpos : 0 < mu1 ∨ ad = 0)
    (hadL : ad < (items.length : ℤ)) (fuel : ℕ) (ref : List Item) :
    ∃ r1 r2, scanScores fuel m1 ref = .ok r1 ∧ scanScores fuel m2 ref = .ok r2 ∧
      List.Forall₂ (fun p q => (p : ℕ × ℚ).1 = (q : ℕ × ℚ).1 ∧
        (p : ℕ × ℚ).2 ≤ (q : ℕ × ℚ).2) r1 r2 := by
  obtain ⟨hi1, ha1, hm1, hth1, hw1⟩ := make_ok_dest h1
  obtain ⟨hi2, ha2, hm2, hth2, hw2⟩ := make_ok_dest h2
  have hitems : m1.items = m2.items := hi1.trans hi2.symm
  have hvec : m1.vectors = m2.vectors := by
    rw [hw1.2.2.2.2.2.2, hw2.2.2.2.2.2.2, hitems]
  have hatom1 : ∀ k ∈ m1.items, (k : Item).length ≤ 1 := by
    rw [hi1]; exact hatom
  have hadL1 : m1.allowed_differences < (m1.items.length : ℤ) := by
    rw [ha1, hi1]; exact hadL
  have hadL2 : m2.allowed_differences < (m2.items.length : ℤ) := by
    rw [ha2, hi2]; exact hadL
  obtain ⟨r1, t1f, r2, t2f, hs1, hs2, hrel⟩ := scanLoopF_mono (find_in fuel)
    (find_in fuel) hitems hvec hw1 hw2 hatom1 ref
    ⟨m1.items.length, m1.allowed_differences, m1.nomatch_multiplier,
      m1.threshold, []⟩
    ⟨m2.items.length, m2.allowed_differences, m2.nomatch_multiplier,
      m2.threshold, []⟩
    0 rfl (by show m2.items.length = m1.items.length; rw [hitems])
    (by show m1.allowed_differences = m2.allowed_differences; rw [ha1, ha2])
    rfl rfl
    (by show m1.nomatch_multiplier ≤ m2.nomatch_multiplier
        rw [hm1, hm2]; exact hmu12)
    (by show 0 < m1.nomatch_multiplier ∨ m1.allowed_differences = 0
        rcases hpos with h | h
        · exact Or.inl (by rw [hm1]; exact h)
        · exact Or.inr (by rw [ha1]; exact h))
    (fun st h => absurd h (List.not_mem_nil st))
    (fun st h => absurd h (List.not_mem_nil st))
    List.Forall₂.nil
  refine ⟨r1, r2, ?_, ?_, hrel⟩
  · show (do
      let t ← MMQTracker.make m1.items.length m1.allowed_differences
        m1.nomatch_multiplier m1.threshold
      let results ← scanLoopF (find_in fuel) m1 t 0 ref
      Except.ok results.1) = .ok r1
    rw [tracker_make_from_wf hw1 hadL1, okBind, hs1, okBind]
  · show (do
      let t ← MMQTracker.make m2.items.length m2.allowed_differences
        m2.nomatch_multiplier m2.threshold
      let results ← scanLoopF (find_in fuel) m2 t 0 ref
      Except.ok results.1) = .ok r2
    rw [tracker_make_from_wf hw2 hadL2, okBind, hs2, okBind]

/-- Witness for C6 (amended) at pattern `[[0], [1]]`, tolerance 0,
multipliers `0 ≤ 1/2`, threshold 0, reference `[[1]]`: the scores are 0 and
`1/2`. -/
theorem C6_monotonic_witness :
    MisMisQuote.make [[0], [1]] 0 0 0 =
      .ok ⟨[[0], [1]], 0, 0, 0, [([0], [1, 0]), ([1], [0, 1])]⟩ ∧
    MisMisQuote.make [[0], [1]] 0 (1 / 2) 0 =
      .ok ⟨[[0], [1]], 0, 1 / 2, 0, [([0], [1, 0]), ([1], [0, 1])]⟩ ∧
    ∃ r1 r2,
      scanScores 1 ⟨[[0], [1]], 0, 0, 0, [([0], [1, 0]), ([1], [0, 1])]⟩ [[1]] =
        .ok r1 ∧
      scanScores 1 ⟨[[0], [1]], 0, 1 / 2, 0, [([0], [1, 0]), ([1], [0, 1])]⟩
        [[1]] = .ok r2 ∧
      List.Forall₂ (fun p q => (p : ℕ × ℚ).1 = (q : ℕ × ℚ).1 ∧
        (p : ℕ × ℚ).2 ≤ (q : ℕ × ℚ).2) r1 r2 := by
  have hA : MisMisQuote.make [[0], [1]] 0 0 0 =
      .ok ⟨[[0], [1]], 0, 0, 0, [([0], [1, 0]), ([1], [0, 1])]⟩ := by
    norm_num +decide [MisMisQuote.make, buildVectors, buildStep, setLoc,
      List.enum, List.enumFrom, List.replicate, List.set, List.any]
  have hB : MisMisQuote.make [[0], [1]] 0 (1 / 2) 0 =
      .ok ⟨[[0], [1]], 0, 1 / 2, 0, [([0], [1, 0]), ([1], [0, 1])]⟩ := by
    norm_num +decide [MisMisQuote.make, buildVectors, buildStep, setLoc,
      List.enum, List.enumFrom, List.replicate, List.set, List.any]
  exact ⟨hA, hB, C6_monotonic [[0], [1]] 0 0 (1 / 2) 0 _ _ hA hB (by decide)
    (by norm_num) (Or.inr rfl) (by norm_num) 1 [[1]]⟩

/-- Witness for C1 at pattern `[[5]]`, prefix `[[7]]`, empty suffix. -/
theorem C1_exact_match_witness :
    ([[5]] : List Item) ≠ [] ∧
    ((∃ res, findIn [[5]] 0 0 1 ([[7]] ++ [[5]] ++ []) = .ok res ∧
       (([[7]] : List Item).length + ([[5]] : List Item).length - 1, (1 : ℚ)) ∈ res) ∧
     findIn [[0], [1], [2]] 0 0 1 [[0], [1], [2]] = .ok [(2, 1)]) :=
  ⟨by decide, C1_exact_match [[5]] [[7]] [] (by decide)⟩

end MMQ
